import Mathlib

/-!
Verification development for the YIN (XML serialization of YANG) statement
parser in src/parser_yin.c.  The C code is shallowly embedded: pointers and
in-place mutation become explicit state passing, machine integers become
Nat/Int with explicit bounds, the external XML tokenizer is abstracted into
an element tree whose keywords are already resolved (keyword resolution is
performed by external collaborators, cf. spec section 2), and fallible
C functions returning LY_ERR become Except values.
-/

set_option maxHeartbeats 1000000

/-- Error outcomes of the parser.  Each constructor corresponds to one of the
LOGVAL/LOGINT error sites of parser_yin.c (spec section 7 gives the semantic
names).  Payloads record the statement keyword reported where useful. -/
inductive Err where
  /-- LY_VCODE_DUP_ATTR, duplicate matching attribute. -/
  | dupAttr
  /-- LY_VCODE_UNEXP_ATTR, unprefixed attribute that is neither the expected
  argument nor empty-named. -/
  | unexpAttr
  /-- Missing mandatory attribute (parser_yin.c line 385). -/
  | missingAttr
  /-- LY_VCODE_INCHAR, character illegal in the active lexical class. -/
  | invalidChar
  /-- LY_VCODE_SUBELEM_REDEF, a unique subelement appeared twice. -/
  | duplicateChild
  /-- LY_VCODE_UNEXP_SUBELEM, child not present in the parent's table. -/
  | unexpectedChild
  /-- LY_VCODE_MAND_SUBELEM, mandatory child absent at end of element. -/
  | missingChild
  /-- LY_VCODE_FIRT_SUBELEM, first-flagged child not first. -/
  | firstViolation
  /-- LY_VCODE_INORDER_YIN, module/submodule phase ordering violated. -/
  | orderingViolation
  /-- LY_VCODE_INSUBELEM2, version-1.1-only child in a 1.0 module. -/
  | versionTooLow
  /-- LY_VCODE_INVAL_YIN, invalid value of an attribute of the named
  statement (also covers the modifier InvalidEnum case). -/
  | invalidValue (kw : Nat)
  /-- LY_VCODE_OOB_YIN, value out of bounds for the named statement. -/
  | oobValue (kw : Nat)
  /-- LY_VCODE_INDEV_YIN, substatement legal for another deviate shape. -/
  | invalidDevSub
  /-- LY_VCODE_DUPIDENT from the CHECK_UNIQUENESS macro. -/
  | dupIdent
  /-- LY_VCODE_INCHILDSTMSCOMB_YIN, invalid combination of subelements
  (min-elements with default on leaf-list). -/
  | childComb
  /-- LY_VCODE_INVAL_MINMAX, min-elements greater than max-elements. -/
  | invalidMinMax
  /-- Model of a failing C assert (would abort the process). -/
  | internalAssert
  /-- LOGINT / LY_EINT, internal-error default branches. -/
  | internal
deriving DecidableEq, Repr

/-- Statement keywords, enum yang_keyword.  The enumeration itself is declared
in a header outside src/; its declaration order (YANG_NONE first, then the
statement keywords alphabetically, then the pseudo-kinds YANG_CUSTOM, YIN_TEXT,
YIN_VALUE) is reconstructed from the strict ascending order that
parser_yin.c asserts over every child table (is_ordered, line 486) and uses
for binary search.  Constructors renamed only where Lean reserves the word
(case_kw, import_kw, include_kw, namespace_kw, pfx for YANG_PREFIX). -/
inductive YangKeyword where
  | none
  | action
  | anydata
  | anyxml
  | argument
  | augment
  | base
  | belongs_to
  | bit
  | case_kw
  | choice
  | config
  | contact
  | container
  | default
  | description
  | deviate
  | deviation
  | enum
  | error_app_tag
  | error_message
  | extension
  | feature
  | fraction_digits
  | grouping
  | identity
  | if_feature
  | import_kw
  | include_kw
  | input
  | key
  | leaf
  | leaf_list
  | length
  | list
  | mandatory
  | max_elements
  | min_elements
  | modifier
  | module
  | must
  | namespace_kw
  | notification
  | ordered_by
  | organization
  | output
  | path
  | pattern
  | position
  | pfx
  | presence
  | range
  | reference
  | refine
  | require_instance
  | revision
  | revision_date
  | rpc
  | status
  | submodule
  | type
  | typedef
  | unique
  | units
  | uses
  | value
  | when
  | yang_version
  | yin_element
  | custom
  | text
  | yin_value
deriving DecidableEq, Repr

/-- Numeric position of a keyword in the enum declaration, the order the
child tables are sorted by and the binary search of get_record compares. -/
def kwIdx : YangKeyword → Nat
  | .none => 0
  | .action => 1
  | .anydata => 2
  | .anyxml => 3
  | .argument => 4
  | .augment => 5
  | .base => 6
  | .belongs_to => 7
  | .bit => 8
  | .case_kw => 9
  | .choice => 10
  | .config => 11
  | .contact => 12
  | .container => 13
  | .default => 14
  | .description => 15
  | .deviate => 16
  | .deviation => 17
  | .enum => 18
  | .error_app_tag => 19
  | .error_message => 20
  | .extension => 21
  | .feature => 22
  | .fraction_digits => 23
  | .grouping => 24
  | .identity => 25
  | .if_feature => 26
  | .import_kw => 27
  | .include_kw => 28
  | .input => 29
  | .key => 30
  | .leaf => 31
  | .leaf_list => 32
  | .length => 33
  | .list => 34
  | .mandatory => 35
  | .max_elements => 36
  | .min_elements => 37
  | .modifier => 38
  | .module => 39
  | .must => 40
  | .namespace_kw => 41
  | .notification => 42
  | .ordered_by => 43
  | .organization => 44
  | .output => 45
  | .path => 46
  | .pattern => 47
  | .position => 48
  | .pfx => 49
  | .presence => 50
  | .range => 51
  | .reference => 52
  | .refine => 53
  | .require_instance => 54
  | .revision => 55
  | .revision_date => 56
  | .rpc => 57
  | .status => 58
  | .submodule => 59
  | .type => 60
  | .typedef => 61
  | .unique => 62
  | .units => 63
  | .uses => 64
  | .value => 65
  | .when => 66
  | .yang_version => 67
  | .yin_element => 68
  | .custom => 69
  | .text => 70
  | .yin_value => 71

/-- Error payload shorthand: report a statement keyword inside Err by number
so Err needs no forward reference to YangKeyword. -/
def kwErr (k : YangKeyword) : Nat := kwIdx k

/-- Argument kinds, enum yin_argument (declared outside src/; only equality is
ever used, so declaration order is irrelevant). -/
inductive YinArgument where
  | unknown
  | none
  | name
  | targetNode
  | module
  | value
  | text
  | condition
  | uri
  | date
  | tag
deriving DecidableEq, Repr

/-- Embedding of yin_match_argument_name (parser_yin.c lines 95-157).  The C
code runs a first-character automaton of strncmp prefix tests over a
length-delimited slice and finally requires already_read == len; on every
slice this reduces to an exact match of the slice against one of the nine
argument names, with the empty slice mapped to YIN_ARG_NONE. -/
def yin_match_argument_name (name : String) : YinArgument :=
  if name.length = 0 then .none
  else if name = "condition" then .condition
  else if name = "date" then .date
  else if name = "module" then .module
  else if name = "name" then .name
  else if name = "tag" then .tag
  else if name = "target-node" then .targetNode
  else if name = "text" then .text
  else if name = "uri" then .uri
  else if name = "value" then .value
  else .unknown

/-- Lexical classes of argument values, enum yang_arg. -/
inductive YangArg where
  | Y_IDENTIF_ARG
  | Y_PREF_IDENTIF_ARG
  | Y_STR_ARG
  | Y_MAYBE_STR_ARG
deriving DecidableEq, Repr

/-- Modelled from the spec: lysp_check_stringchar lives outside src/.  A
string character is a tab, a line feed, a carriage return, or any codepoint
at or above space (spec section 4.2: per-class character rules over decoded
UTF-8 codepoints). -/
def lysp_check_stringchar (c : Char) : Bool :=
  c.toNat = 9 ∨ c.toNat = 10 ∨ c.toNat = 13 ∨ 32 ≤ c.toNat

/-- Modelled from the spec: lysp_check_identifierchar lives outside src/.
YANG identifier first characters are letters or underscore; subsequent
characters also admit digits, hyphen and dot (spec section 4.2,
first-character/subsequent-character partition). -/
def identFirstChar (c : Char) : Bool :=
  c.isAlpha ∨ c = '_'

/-- Modelled from the spec: subsequent identifier characters. -/
def identChar (c : Char) : Bool :=
  c.isAlpha ∨ c.isDigit ∨ c = '_' ∨ c = '-' ∨ c = '.'

/-- Character loop of yin_validate_value (parser_yin.c lines 299-327); the
identifier state tracks whether the next character is in first position and,
for the prefixed class, whether the single colon separator was already
consumed (spec section 4.2: PrefixedIdentifier tolerates exactly one colon). -/
def validateChars (t : YangArg) : List Char → Bool → Bool → Bool
  | [], _, _ => true
  | c :: rest, first, colonSeen =>
    match t with
    | .Y_IDENTIF_ARG =>
      if first then identFirstChar c ∧ validateChars t rest false colonSeen
      else identChar c ∧ validateChars t rest false colonSeen
    | .Y_PREF_IDENTIF_ARG =>
      if c = ':' ∧ ¬colonSeen ∧ ¬first then validateChars t rest true true
      else if first then identFirstChar c ∧ validateChars t rest false colonSeen
      else identChar c ∧ validateChars t rest false colonSeen
    | .Y_STR_ARG => lysp_check_stringchar c ∧ validateChars t rest false colonSeen
    | .Y_MAYBE_STR_ARG => lysp_check_stringchar c ∧ validateChars t rest false colonSeen

/-- Embedding of yin_validate_value: LY_EVALID on the first offending
character. -/
def yin_validate_value (t : YangArg) (s : String) : Except Err Unit :=
  if validateChars t s.data true false then .ok () else .error .invalidChar

/-- One attribute as surfaced by yin_load_attributes: prefix slice (none when
the attribute is unprefixed), name slice and value.  The dynamic_content
ownership flag only controls which dictionary call interns the value and is
dropped. -/
structure AttrRecord where
  pfx : Option String
  name : String
  content : String
deriving DecidableEq, Repr

/-- Attribute scanning loop of yin_parse_attribute (parser_yin.c lines
352-381).  State: the found flag and the value bound so far. -/
def yin_parse_attribute_go (arg_type : YinArgument) (val_type : YangArg) :
    List AttrRecord → Bool → Option String → Except Err (Bool × Option String)
  | [], found, acc => .ok (found, acc)
  | a :: rest, found, acc =>
    -- yin arguments represented as attributes have no namespace / no prefix
    if a.pfx ≠ Option.none then yin_parse_attribute_go arg_type val_type rest found acc
    else
      let arg := yin_match_argument_name a.name
      if arg = .none then yin_parse_attribute_go arg_type val_type rest found acc
      else if arg = arg_type then
        if found then .error .dupAttr
        else
          match yin_validate_value val_type a.content with
          | .error e => .error e
          | .ok _ => yin_parse_attribute_go arg_type val_type rest true (some a.content)
      else .error .unexpAttr

/-- Embedding of yin_parse_attribute (parser_yin.c lines 343-390): exactly
one unprefixed attribute matching the expected argument is accepted and its
validated value returned; anything else than Y_MAYBE_STR_ARG makes the
attribute mandatory. -/
def yin_parse_attribute (attrs : List AttrRecord) (arg_type : YinArgument)
    (val_type : YangArg) : Except Err (Option String) :=
  match yin_parse_attribute_go arg_type val_type attrs false Option.none with
  | .error e => .error e
  | .ok (found, acc) =>
    if val_type ≠ .Y_MAYBE_STR_ARG ∧ found = false then .error .missingAttr
    else .ok acc

/-- C-locale isspace, the whitespace class skipped by strtol/strtoul. -/
def isspaceC (c : Char) : Bool :=
  c.toNat = 32 ∨ c.toNat = 9 ∨ c.toNat = 10 ∨ c.toNat = 11 ∨ c.toNat = 12 ∨ c.toNat = 13

/-- C-locale isdigit: the decimal digit codepoints 48-57. -/
def isdigitC (c : Char) : Bool :=
  48 ≤ c.toNat ∧ c.toNat ≤ 57

/-- Numeric value of a decimal digit run. -/
def digitsVal (l : List Char) : Nat :=
  l.foldl (fun a c => a * 10 + (c.toNat - 48)) 0

/-- LONG_MAX on the LP64 platforms the C code targets. -/
def longMax : Int := 9223372036854775807

/-- LONG_MIN on LP64. -/
def longMin : Int := -9223372036854775808

/-- ULONG_MAX on LP64. -/
def ulongMax : Nat := 18446744073709551615

/-- Result of the C library conversions: converted value, unconsumed suffix
(the endptr), and whether ERANGE was raised. -/
structure CNumResult (α : Type) where
  val : α
  rest : List Char
  erange : Bool
deriving DecidableEq, Repr

/-- Shared scan of the C strtol/strtoul conversions: skip C-locale leading
whitespace, read one optional sign, consume the maximal decimal digit run.
Result: negative flag, digit run (empty means no conversion), unconsumed
suffix. -/
def cnumScan (s : List Char) : Bool × List Char × List Char :=
  let ws := s.dropWhile isspaceC
  let neg := ws.headD ' ' = '-'
  let body := if ws.headD ' ' = '-' ∨ ws.headD ' ' = '+' then ws.tail else ws
  (neg, body.takeWhile isdigitC, body.dropWhile isdigitC)

/-- Model of strtol(s, &ptr, 10) per the C standard: without digits return 0
with endptr = s; on overflow clamp to LONG_MIN/LONG_MAX and raise ERANGE. -/
def strtol_m (s : List Char) : CNumResult Int :=
  let scan := cnumScan s
  if scan.2.1 = [] then { val := 0, rest := s, erange := false }
  else
    let m : Int := (digitsVal scan.2.1 : Int)
    let v : Int := if scan.1 then -m else m
    if v < longMin then { val := longMin, rest := scan.2.2, erange := true }
    else if longMax < v then { val := longMax, rest := scan.2.2, erange := true }
    else { val := v, rest := scan.2.2, erange := false }

/-- Model of strtoul(s, &ptr, 10) per the C standard: a leading minus is
accepted and the converted magnitude is negated modulo 2^64; a magnitude
exceeding ULONG_MAX clamps to ULONG_MAX with ERANGE. -/
def strtoul_m (s : List Char) : CNumResult Nat :=
  let scan := cnumScan s
  if scan.2.1 = [] then { val := 0, rest := s, erange := false }
  else
    let m : Nat := digitsVal scan.2.1
    if ulongMax < m then { val := ulongMax, rest := scan.2.2, erange := true }
    else
      let v : Nat := if scan.1 then (2 ^ 64 - m % 2 ^ 64) % 2 ^ 64 else m
      { val := v, rest := scan.2.2, erange := false }

mutual

/-- One XML element after keyword resolution: statement keyword, attribute
records, and element content.  The external tokenizer and keyword matcher of
spec sections 2 and 4.1 are abstracted into this tree. -/
inductive Elem where
  | mk (kw : YangKeyword) (attrs : List AttrRecord) (content : ElemContent)

/-- Element content as the child loop of yin_parse_content distinguishes it:
no content, text content, or child elements. -/
inductive ElemContent where
  | empty
  | text (s : String)
  | elems (cs : List Elem)

end

/-- Keyword of an element. -/
def Elem.kw : Elem → YangKeyword
  | .mk k _ _ => k

/-- Attributes of an element. -/
def Elem.attrs : Elem → List AttrRecord
  | .mk _ a _ => a

/-- Content of an element. -/
def Elem.content : Elem → ElemContent
  | .mk _ _ c => c

/-- Flag word of a child table entry, struct yin_subelement.flags: the
YIN_SUBELEM_MANDATORY / UNIQUE / FIRST / VER2 bits plus the runtime
YIN_SUBELEM_PARSED bookkeeping bit. -/
structure SubelemFlags where
  mandatory : Bool
  unique : Bool
  first : Bool
  ver2 : Bool
  parsed : Bool
deriving DecidableEq, Repr

/-- Empty flag word. -/
def flags0 : SubelemFlags :=
  { mandatory := false, unique := false, first := false, ver2 := false, parsed := false }

/-- Child table entry, struct yin_subelement.  The dest pointer of the C
struct selects the field a handler writes to; the shallow embedding resolves
this through the concrete handler functions instead. -/
structure YinSubelement where
  type : YangKeyword
  flags : SubelemFlags
deriving DecidableEq, Repr

/-- Placeholder entry, never reached by an in-range table access. -/
def dummySubelem : YinSubelement :=
  { type := .none, flags := flags0 }

/-- Mark an entry as parsed (subelem->flags |= YIN_SUBELEM_PARSED). -/
def setParsed (e : YinSubelement) : YinSubelement :=
  { e with flags := { e.flags with parsed := true } }

/-- Binary search loop of get_record (parser_yin.c lines 401-421) over the
type-sorted table; left/right are the signed bounds of the C code, the fuel
strictly exceeds the table length so the halving interval can never exhaust
it.  The found entry is returned as its index, standing for the C pointer
into the array. -/
def get_record_go (kw : YangKeyword) (l : List YinSubelement) :
    Nat → Int → Int → Option Nat
  | 0, _, _ => Option.none
  | fuel + 1, left, right =>
    if left ≤ right then
      let middle : Int := left + (right - left) / 2
      let e := l.getD middle.toNat dummySubelem
      if e.type = kw then some middle.toNat
      else if kwIdx e.type < kwIdx kw then get_record_go kw l fuel (middle + 1) right
      else get_record_go kw l fuel left (middle - 1)
    else Option.none

/-- Embedding of get_record. -/
def get_record (kw : YangKeyword) (l : List YinSubelement) : Option Nat :=
  get_record_go kw l (l.length + 1) 0 ((l.length : Int) - 1)

/-- Embedding of is_ordered (parser_yin.c lines 485-499): the table is
strictly ascending by statement keyword. -/
def is_ordered (l : List YinSubelement) : Bool :=
  (is_ordered_go l 0)
where
  /-- Running comparison against the previous keyword index, starting from
  YANG_NONE. -/
  is_ordered_go : List YinSubelement → Nat → Bool
  | [], _ => true
  | e :: rest, current =>
    if kwIdx e.type ≤ current then false else is_ordered_go rest (kwIdx e.type)

/-- Embedding of yin_check_subelem_mandatory_constraint (lines 433-447). -/
def yin_check_subelem_mandatory_constraint (l : List YinSubelement) : Except Err Unit :=
  if l.any (fun e => e.flags.mandatory ∧ ¬e.flags.parsed) then .error .missingChild
  else .ok ()

/-- Embedding of yin_check_subelem_first_constraint (lines 460-474): error if
any entry of the table already carries the parsed flag. -/
def yin_check_subelem_first_constraint (l : List YinSubelement) : Except Err Unit :=
  if l.any (fun e => e.flags.parsed) then .error .firstViolation
  else .ok ()

/-- Modelled from the spec: isdevsub is declared outside src/; it recognises
a keyword that is a legal substatement of some deviate shape (spec section
4.4: the InvalidDeviateSubstatement error recognises a child legal for a
different deviate shape). -/
def isdevsub (kw : YangKeyword) : Bool :=
  kw = .config ∨ kw = .default ∨ kw = .mandatory ∨ kw = .max_elements ∨
  kw = .min_elements ∨ kw = .must ∨ kw = .type ∨ kw = .unique ∨ kw = .units

/-- Phase groups of module/submodule children, enum yang_module_stmt
(declared outside src/).  Modelled from the spec: the phases are ordered
Header before Linkage before Meta before Revision before Body
(spec section 4.3 step d). -/
inductive YangModuleStmt where
  | moduleHeader
  | linkage
  | meta
  | revision
  | body
deriving DecidableEq, Repr

/-- Numeric order of the phase groups. -/
def grpIdx : YangModuleStmt → Nat
  | .moduleHeader => 0
  | .linkage => 1
  | .meta => 2
  | .revision => 3
  | .body => 4

/-- Embedding of kw2kw_group (parser_yin.c lines 2815-2870). -/
def kw2kw_group : YangKeyword → Except Err YangModuleStmt
  | .none => .ok .moduleHeader
  | .namespace_kw => .ok .moduleHeader
  | .pfx => .ok .moduleHeader
  | .belongs_to => .ok .moduleHeader
  | .yang_version => .ok .moduleHeader
  | .include_kw => .ok .linkage
  | .import_kw => .ok .linkage
  | .organization => .ok .meta
  | .contact => .ok .meta
  | .description => .ok .meta
  | .reference => .ok .meta
  | .revision => .ok .revision
  | .anydata => .ok .body
  | .anyxml => .ok .body
  | .augment => .ok .body
  | .choice => .ok .body
  | .container => .ok .body
  | .deviation => .ok .body
  | .extension => .ok .body
  | .feature => .ok .body
  | .grouping => .ok .body
  | .identity => .ok .body
  | .leaf => .ok .body
  | .leaf_list => .ok .body
  | .list => .ok .body
  | .notification => .ok .body
  | .rpc => .ok .body
  | .typedef => .ok .body
  | .uses => .ok .body
  | .custom => .ok .body
  | _ => .error .internal

/-- Embedding of yin_check_relative_order (parser_yin.c lines 2883-2898):
LY_EVALID when the previous keyword's group exceeds the next one's. -/
def yin_check_relative_order (kw next_kw : YangKeyword) : Except Err Unit :=
  match kw2kw_group kw with
  | .error e => .error e
  | .ok gr =>
    match kw2kw_group next_kw with
    | .error e => .error e
    | .ok next_gr =>
      if grpIdx next_gr < grpIdx gr then .error .orderingViolation
      else .ok ()

/-- Child element loop of yin_parse_content (parser_yin.c lines 2919-3165),
generic over the parse state sigma and the per-keyword handler switch: the
keyword of the child is looked up in the table, the relative order is checked
under module/submodule, the unique / first / version-1.1 flag rules are
enforced, the entry is marked parsed, and the handler runs; the first error
stops the loop.  ver projects the active yang-version out of the state
(ctx->mod_version, which handlers may update). -/
def yin_parse_content_step {σ : Type} (ver : σ → Nat)
    (handler : σ → Elem → Except Err σ) (parrent : YangKeyword)
    (info : List YinSubelement) (lastKw : YangKeyword) (st : σ) (c : Elem) :
    Except Err (List YinSubelement × σ) :=
  match get_record (Elem.kw c) info with
  | Option.none =>
    -- check if this element can be child of current element
    if parrent = .deviate ∧ isdevsub (Elem.kw c) then .error .invalidDevSub
    else .error .unexpectedChild
  | some i =>
    let e := info.getD i dummySubelem
    -- relative order is required only in module and submodule sub-elements
    match (if parrent = .module ∨ parrent = .submodule then
             yin_check_relative_order lastKw (Elem.kw c)
           else .ok ()) with
    | .error err => .error err
    | .ok _ =>
      if e.flags.unique ∧ e.flags.parsed then .error .duplicateChild
      else
        match (if e.flags.first then yin_check_subelem_first_constraint info
               else .ok ()) with
        | .error err => .error err
        | .ok _ =>
          if e.flags.ver2 ∧ ver st < 2 then .error .versionTooLow
          else
            let info2 := info.set i (setParsed e)
            match handler st c with
            | .error err => .error err
            | .ok st2 => .ok (info2, st2)

/-- Iteration of the child loop: the first failing step stops it. -/
def yin_parse_content_loop {σ : Type} (ver : σ → Nat)
    (handler : σ → Elem → Except Err σ) (parrent : YangKeyword) :
    List YinSubelement → YangKeyword → σ → List Elem →
    Except Err (List YinSubelement × σ)
  | info, _, st, [] => .ok (info, st)
  | info, lastKw, st, c :: rest =>
    match yin_parse_content_step ver handler parrent info lastKw st c with
    | .error err => .error err
    | .ok (info2, st2) =>
      yin_parse_content_loop ver handler parrent info2 (Elem.kw c) st2 rest

/-- Embedding of yin_parse_content (parser_yin.c lines 2900-3196): text
content is validated as a string and delivered to the sink when one is given;
element content runs the child loop; in every case the mandatory constraint
is verified at the end. -/
def yin_parse_content {σ : Type} (ver : σ → Nat)
    (handler : σ → Elem → Except Err σ) (info : List YinSubelement)
    (parrent : YangKeyword) (txt : Option (σ → String → σ)) (st : σ) :
    ElemContent → Except Err σ
  | .elems cs =>
    match yin_parse_content_loop ver handler parrent info .none st cs with
    | .error e => .error e
    | .ok (info2, st2) =>
      match yin_check_subelem_mandatory_constraint info2 with
      | .error e => .error e
      | .ok _ => .ok st2
  | .text s =>
    match yin_validate_value .Y_STR_ARG s with
    | .error e => .error e
    | .ok _ =>
      let st2 := match txt with
        | some f => f st s
        | Option.none => st
      match yin_check_subelem_mandatory_constraint info with
      | .error e => .error e
      | .ok _ => .ok st2
  | .empty =>
    match yin_check_subelem_mandatory_constraint info with
    | .error e => .error e
    | .ok _ => .ok st

/-- Child table of the module element (yin_parse_mod, parser_yin.c lines
3388-3417): yang-version, namespace and prefix are mandatory and unique;
anydata requires version 1.1; contact, description, organization and
reference are unique. -/
def module_subelems : List YinSubelement :=
  [ { type := .anydata, flags := { flags0 with ver2 := true } },
    { type := .anyxml, flags := flags0 },
    { type := .augment, flags := flags0 },
    { type := .choice, flags := flags0 },
    { type := .contact, flags := { flags0 with unique := true } },
    { type := .container, flags := flags0 },
    { type := .description, flags := { flags0 with unique := true } },
    { type := .deviation, flags := flags0 },
    { type := .extension, flags := flags0 },
    { type := .feature, flags := flags0 },
    { type := .grouping, flags := flags0 },
    { type := .identity, flags := flags0 },
    { type := .import_kw, flags := flags0 },
    { type := .include_kw, flags := flags0 },
    { type := .leaf, flags := flags0 },
    { type := .leaf_list, flags := flags0 },
    { type := .list, flags := flags0 },
    { type := .namespace_kw, flags := { flags0 with mandatory := true, unique := true } },
    { type := .notification, flags := flags0 },
    { type := .organization, flags := { flags0 with unique := true } },
    { type := .pfx, flags := { flags0 with mandatory := true, unique := true } },
    { type := .reference, flags := { flags0 with unique := true } },
    { type := .revision, flags := flags0 },
    { type := .rpc, flags := flags0 },
    { type := .typedef, flags := flags0 },
    { type := .uses, flags := flags0 },
    { type := .yang_version, flags := { flags0 with mandatory := true, unique := true } },
    { type := .custom, flags := flags0 } ]

/-- Child table of the container element (yin_parse_container, lines
2297-2319): action, anydata and notification are version-1.1-only. -/
def container_subelems : List YinSubelement :=
  [ { type := .action, flags := { flags0 with ver2 := true } },
    { type := .anydata, flags := { flags0 with ver2 := true } },
    { type := .anyxml, flags := flags0 },
    { type := .choice, flags := flags0 },
    { type := .config, flags := { flags0 with unique := true } },
    { type := .container, flags := flags0 },
    { type := .description, flags := { flags0 with unique := true } },
    { type := .grouping, flags := flags0 },
    { type := .if_feature, flags := flags0 },
    { type := .leaf, flags := flags0 },
    { type := .leaf_list, flags := flags0 },
    { type := .list, flags := flags0 },
    { type := .must, flags := flags0 },
    { type := .notification, flags := { flags0 with ver2 := true } },
    { type := .presence, flags := { flags0 with unique := true } },
    { type := .reference, flags := { flags0 with unique := true } },
    { type := .status, flags := { flags0 with unique := true } },
    { type := .typedef, flags := flags0 },
    { type := .uses, flags := flags0 },
    { type := .when, flags := { flags0 with unique := true } },
    { type := .custom, flags := flags0 } ]

/-- Child table of the pattern element (yin_parse_pattern, lines 582-589). -/
def pattern_subelems : List YinSubelement :=
  [ { type := .description, flags := { flags0 with unique := true } },
    { type := .error_app_tag, flags := { flags0 with unique := true } },
    { type := .error_message, flags := { flags0 with unique := true } },
    { type := .modifier, flags := { flags0 with unique := true } },
    { type := .reference, flags := { flags0 with unique := true } },
    { type := .custom, flags := flags0 } ]

/-- Child table of the leaf-list element (yin_parse_leaflist, lines
1464-1479): type is mandatory and unique, default may repeat. -/
def leaflist_subelems : List YinSubelement :=
  [ { type := .config, flags := { flags0 with unique := true } },
    { type := .default, flags := flags0 },
    { type := .description, flags := { flags0 with unique := true } },
    { type := .if_feature, flags := flags0 },
    { type := .max_elements, flags := { flags0 with unique := true } },
    { type := .min_elements, flags := { flags0 with unique := true } },
    { type := .must, flags := flags0 },
    { type := .ordered_by, flags := { flags0 with unique := true } },
    { type := .reference, flags := { flags0 with unique := true } },
    { type := .status, flags := { flags0 with unique := true } },
    { type := .type, flags := { flags0 with unique := true, mandatory := true } },
    { type := .units, flags := { flags0 with unique := true } },
    { type := .when, flags := { flags0 with unique := true } },
    { type := .custom, flags := flags0 } ]

/-- Child table of the list element (yin_parse_list, lines 2115-2141). -/
def list_subelems : List YinSubelement :=
  [ { type := .action, flags := flags0 },
    { type := .anydata, flags := flags0 },
    { type := .anyxml, flags := flags0 },
    { type := .choice, flags := flags0 },
    { type := .config, flags := { flags0 with unique := true } },
    { type := .container, flags := flags0 },
    { type := .description, flags := { flags0 with unique := true } },
    { type := .grouping, flags := flags0 },
    { type := .if_feature, flags := flags0 },
    { type := .key, flags := { flags0 with unique := true } },
    { type := .leaf, flags := flags0 },
    { type := .leaf_list, flags := flags0 },
    { type := .list, flags := flags0 },
    { type := .max_elements, flags := { flags0 with unique := true } },
    { type := .min_elements, flags := { flags0 with unique := true } },
    { type := .must, flags := flags0 },
    { type := .notification, flags := flags0 },
    { type := .ordered_by, flags := { flags0 with unique := true } },
    { type := .reference, flags := { flags0 with unique := true } },
    { type := .status, flags := { flags0 with unique := true } },
    { type := .typedef, flags := flags0 },
    { type := .unique, flags := flags0 },
    { type := .uses, flags := flags0 },
    { type := .when, flags := { flags0 with unique := true } },
    { type := .custom, flags := flags0 } ]

/-- Child table of the bit element (yin_parse_bit, lines 695-702). -/
def bit_subelems : List YinSubelement :=
  [ { type := .description, flags := { flags0 with unique := true } },
    { type := .if_feature, flags := flags0 },
    { type := .position, flags := { flags0 with unique := true } },
    { type := .reference, flags := { flags0 with unique := true } },
    { type := .status, flags := { flags0 with unique := true } },
    { type := .custom, flags := flags0 } ]

/-- Child table of the type element (yin_parse_type, lines 1157-1169). -/
def type_subelems : List YinSubelement :=
  [ { type := .base, flags := flags0 },
    { type := .bit, flags := flags0 },
    { type := .enum, flags := flags0 },
    { type := .fraction_digits, flags := { flags0 with unique := true } },
    { type := .length, flags := { flags0 with unique := true } },
    { type := .path, flags := { flags0 with unique := true } },
    { type := .pattern, flags := flags0 },
    { type := .range, flags := { flags0 with unique := true } },
    { type := .require_instance, flags := { flags0 with unique := true } },
    { type := .type, flags := flags0 },
    { type := .custom, flags := flags0 } ]

/-- Extension-only child table used by yin_parse_modifier, yin_parse_minmax
and yin_parse_value_pos_element (a single YANG_CUSTOM entry). -/
def custom_only_subelems : List YinSubelement :=
  [ { type := .custom, flags := flags0 } ]

/-- Enumerant node, struct lysp_type_enum: interned name, decoded value and
the LYS_SET_VALUE flag bit (the struct is declared outside src/; its value
slot holds the decoded integer, spec section 4.4). -/
structure LyspTypeEnum where
  name : Option String
  value : Int
  valueSet : Bool
deriving DecidableEq, Repr

/-- Zero-initialized enumerant as produced by LY_ARRAY_NEW_RET. -/
def emptyEnum : LyspTypeEnum :=
  { name := Option.none, value := 0, valueSet := false }

/-- Handler oracle type: stands for the per-statement handlers a concrete
instantiation does not spell out; each yields the string the handler would
store into its destination slot, or its first error. -/
def Oracle : Type := Elem → Except Err String

/-- Oracle result discarded, state unchanged (handlers that write fields the
surrounding claim does not observe). -/
def oracleUnit {σ : Type} (oracle : Oracle) (st : σ) (c : Elem) : Except Err σ :=
  match oracle c with
  | .error e => .error e
  | .ok _ => .ok st

/-- Conversion core of yin_parse_value_pos_element (parser_yin.c lines
995-1030): the first-character guards of the bound value (empty, leading
plus, multi-character leading zero, the exact string "-0" for position),
the strtol / strtoul conversion, the range check against the int32 / uint32
domain, the full-consumption check and the ERANGE check, yielding the
decoded integer. -/
def value_pos_convert (kw : YangKeyword) (s : List Char) : Except Err Int :=
  if s = [] ∨ s.headD ' ' = '+' ∨ (s.headD ' ' = '0' ∧ 1 < s.length) ∨
      (kw = .position ∧ s = ['-', '0']) then
    .error (.invalidValue (kwErr kw))
  else
    match (if kw = .value then
             let r := strtol_m s
             if r.val < -2147483648 ∨ 2147483647 < r.val then
               .error (.invalidValue (kwErr kw))
             else .ok (r.val, r.rest, r.erange)
           else
             let r := strtoul_m s
             if 4294967295 < r.val then .error (.invalidValue (kwErr kw))
             else .ok ((r.val : Int), r.rest, r.erange) :
           Except Err (Int × List Char × Bool)) with
    | .error e => .error e
    | .ok (num, rest, erange) =>
      -- check if whole argument value was converted
      if rest ≠ [] then .error (.invalidValue (kwErr kw))
      else if erange then .error (.oobValue (kwErr kw))
      else .ok num

/-- Embedding of yin_parse_value_pos_element (parser_yin.c lines 980-1042):
set the LYS_SET_VALUE flag, bind the value attribute, run the conversion
core, store the decoded integer, then parse extension subelements. -/
def yin_parse_value_pos_element (oracle : Oracle) (kw : YangKeyword)
    (attrs : List AttrRecord) (content : ElemContent) (enm : LyspTypeEnum) :
    Except Err LyspTypeEnum :=
  -- set value flag
  let enm1 := { enm with valueSet := true }
  match yin_parse_attribute attrs .value .Y_STR_ARG with
  | .error e => .error e
  | .ok Option.none => .error .internal
  | .ok (some tv) =>
    match value_pos_convert kw tv.data with
    | .error e => .error e
    | .ok num =>
      let enm2 := { enm1 with value := num }
      match yin_parse_content (fun _ => 2) (oracleUnit oracle)
          custom_only_subelems kw Option.none enm2 content with
      | .error e => .error e
      | .ok enm3 => .ok enm3

/-- Restriction node for pattern, struct lysp_restr: the argument string is
kept as a character list (a C string), the other slots as interned strings.
Extension instances are not tracked. -/
structure LyspRestr where
  arg : List Char
  dsc : Option String
  eapptag : Option String
  emsg : Option String
  ref : Option String
deriving DecidableEq, Repr

/-- Sentinel byte 0x06 prefixed by yin_parse_pattern ("match"). -/
def sentinelMatch : Char := Char.ofNat 6

/-- Sentinel byte 0x15 written by yin_parse_modifier ("invert-match"). -/
def sentinelInvert : Char := Char.ofNat 21

/-- Embedding of yin_parse_modifier (parser_yin.c lines 845-876): the entry
assertion requires the current pattern argument to start with 0x06 (a failing
C assert is modelled as the internalAssert error); the value attribute must
be exactly invert-match, otherwise LY_VCODE_INVAL_YIN; the stored pattern
string is copied with its first byte replaced by 0x15; finally extension
subelements are parsed. -/
def yin_parse_modifier (oracle : Oracle) (attrs : List AttrRecord)
    (content : ElemContent) (pat : List Char) : Except Err (List Char) :=
  -- assert(**pat == 0x06)
  if pat.headD ' ' ≠ sentinelMatch then .error .internalAssert
  else
    match yin_parse_attribute attrs .value .Y_STR_ARG with
    | .error e => .error e
    | .ok Option.none => .error .internal
    | .ok (some temp_val) =>
      if temp_val ≠ "invert-match" then .error (.invalidValue (kwErr .modifier))
      else
        -- allocate the new value and modify its first byte
        let modified_val := sentinelInvert :: pat.tail
        match yin_parse_content (fun _ => 2) (oracleUnit oracle)
            custom_only_subelems .modifier Option.none () content with
        | .error e => .error e
        | .ok _ => .ok modified_val

/-- Handler switch for the children of a pattern element: description,
error-app-tag, error-message and reference write their own slots of the
restriction (their dest pointers in the C table cannot reach arg), modifier
rewrites the stored argument, extensions leave the node unchanged. -/
def patternChildHandler (oracle : Oracle) (st : LyspRestr) (c : Elem) :
    Except Err LyspRestr :=
  match Elem.kw c with
  | .description =>
    match oracle c with
    | .error e => .error e
    | .ok v => .ok { st with dsc := some v }
  | .error_app_tag =>
    match oracle c with
    | .error e => .error e
    | .ok v => .ok { st with eapptag := some v }
  | .error_message =>
    match oracle c with
    | .error e => .error e
    | .ok v => .ok { st with emsg := some v }
  | .reference =>
    match oracle c with
    | .error e => .error e
    | .ok v => .ok { st with ref := some v }
  | .modifier =>
    match yin_parse_modifier oracle (Elem.attrs c) (Elem.content c) st.arg with
    | .error e => .error e
    | .ok a => .ok { st with arg := a }
  | .custom =>
    match oracle c with
    | .error e => .error e
    | .ok _ => .ok st
  | _ => .error .internal

/-- Embedding of yin_parse_pattern (parser_yin.c lines 560-591): bind the
value attribute, store it prefixed with the single sentinel byte 0x06, then
dispatch the children over the pattern table. -/
def yin_parse_pattern (oracle : Oracle) (attrs : List AttrRecord)
    (content : ElemContent) : Except Err LyspRestr :=
  match yin_parse_attribute attrs .value .Y_STR_ARG with
  | .error e => .error e
  | .ok Option.none => .error .internal
  | .ok (some real_value) =>
    let saved_value := sentinelMatch :: real_value.data
    let restr : LyspRestr :=
      { arg := saved_value, dsc := Option.none, eapptag := Option.none,
        emsg := Option.none, ref := Option.none }
    yin_parse_content (fun _ => 2) (patternChildHandler oracle)
      pattern_subelems .pattern Option.none restr content

/-- Embedding of yin_parse_minelements (parser_yin.c lines 1236-1271): bind
the value attribute, reject empty strings and multi-character leading zeros,
convert with strtoul, require full consumption, reject ERANGE or a value
beyond UINT32_MAX, then parse extension subelements and return the bound. -/
def yin_parse_minelements (oracle : Oracle) (attrs : List AttrRecord)
    (content : ElemContent) : Except Err Nat :=
  match yin_parse_attribute attrs .value .Y_STR_ARG with
  | .error e => .error e
  | .ok Option.none => .error (.invalidValue (kwErr .min_elements))
  | .ok (some temp_val) =>
    let s := temp_val.data
    if s = [] ∨ (s.headD ' ' = '0' ∧ 1 < s.length) then
      .error (.invalidValue (kwErr .min_elements))
    else
      let r := strtoul_m s
      if r.rest ≠ [] then .error (.invalidValue (kwErr .min_elements))
      else if r.erange ∨ 4294967295 < r.val then
        .error (.oobValue (kwErr .min_elements))
      else
        match yin_parse_content (fun _ => 2) (oracleUnit oracle)
            custom_only_subelems .min_elements Option.none () content with
        | .error e => .error e
        | .ok _ => .ok r.val

/-- Embedding of yin_parse_maxelements (parser_yin.c lines 1186-1222): the
guard also rejects any first character that is neither u nor a digit; the
literal unbounded leaves the stored bound untouched (result none); numeric
values behave as for min-elements. -/
def yin_parse_maxelements (oracle : Oracle) (attrs : List AttrRecord)
    (content : ElemContent) : Except Err (Option Nat) :=
  match yin_parse_attribute attrs .value .Y_STR_ARG with
  | .error e => .error e
  | .ok Option.none => .error (.invalidValue (kwErr .max_elements))
  | .ok (some temp_val) =>
    let s := temp_val.data
    if s = [] ∨ s.headD ' ' = '0' ∨ (s.headD ' ' ≠ 'u' ∧ ¬isdigitC (s.headD ' ')) then
      .error (.invalidValue (kwErr .max_elements))
    else
      match (if temp_val ≠ "unbounded" then
               let r := strtoul_m s
               if r.rest ≠ [] then .error (.invalidValue (kwErr .max_elements))
               else if r.erange ∨ 4294967295 < r.val then
                 .error (.oobValue (kwErr .max_elements))
               else .ok (some r.val)
             else .ok Option.none : Except Err (Option Nat)) with
      | .error e => .error e
      | .ok m =>
        match yin_parse_content (fun _ => 2) (oracleUnit oracle)
            custom_only_subelems .max_elements Option.none () content with
        | .error e => .error e
        | .ok _ => .ok m

/-- Leaf-list node, struct lysp_node_leaflist, restricted to the claim-
relevant slots: name, collected defaults, min/max bounds and the
LYS_SET_MIN / LYS_SET_MAX flag bits.  Slots written by the other child
handlers are not tracked. -/
structure LyspNodeLeaflist where
  name : Option String
  dflts : List String
  min : Nat
  max : Nat
  setMin : Bool
  setMax : Bool
deriving DecidableEq, Repr

/-- Zero-initialized leaf-list node as produced by LY_LIST_NEW_RET. -/
def emptyLeaflist : LyspNodeLeaflist :=
  { name := Option.none, dflts := [], min := 0, max := 0,
    setMin := false, setMax := false }

/-- Handler switch for the children of a leaf-list element: default appends
its bound value (yin_parse_simple_elements), min-elements and max-elements
run the numeric parse through yin_parse_minmax with the leaf-list
destinations and set the corresponding flag, the remaining table kinds write
untracked slots. -/
def llistChildHandler (oracle : Oracle) (st : LyspNodeLeaflist) (c : Elem) :
    Except Err LyspNodeLeaflist :=
  match Elem.kw c with
  | .default =>
    match yin_parse_attribute (Elem.attrs c) .value .Y_STR_ARG with
    | .error e => .error e
    | .ok Option.none => .error .internal
    | .ok (some v) =>
      match yin_parse_content (fun _ => 2) (oracleUnit oracle)
          custom_only_subelems .default Option.none () (Elem.content c) with
      | .error e => .error e
      | .ok _ => .ok { st with dflts := st.dflts ++ [v] }
  | .min_elements =>
    let st1 := { st with setMin := true }
    match yin_parse_minelements oracle (Elem.attrs c) (Elem.content c) with
    | .error e => .error e
    | .ok n => .ok { st1 with min := n }
  | .max_elements =>
    let st1 := { st with setMax := true }
    match yin_parse_maxelements oracle (Elem.attrs c) (Elem.content c) with
    | .error e => .error e
    | .ok (some n) => .ok { st1 with max := n }
    | .ok Option.none => .ok st1
  | .config => oracleUnit oracle st c
  | .description => oracleUnit oracle st c
  | .if_feature => oracleUnit oracle st c
  | .must => oracleUnit oracle st c
  | .ordered_by => oracleUnit oracle st c
  | .reference => oracleUnit oracle st c
  | .status => oracleUnit oracle st c
  | .type => oracleUnit oracle st c
  | .units => oracleUnit oracle st c
  | .when => oracleUnit oracle st c
  | .custom => oracleUnit oracle st c
  | _ => .error .internal

/-- Name binding of the leaf-list handler (parser_yin.c line 1461), factored
out so theorems can name the state the content parse starts from: the
LY_ERR result of the attribute binding is dropped there, so on error the
name slot simply stays unset. -/
def llistBindName (attrs : List AttrRecord) : LyspNodeLeaflist :=
  match yin_parse_attribute attrs .name .Y_IDENTIF_ARG with
  | .ok v => { emptyLeaflist with name := v }
  | .error _ => emptyLeaflist

/-- Embedding of yin_parse_leaflist (parser_yin.c lines 1449-1493).  Note
line 1461: the return value of the name-attribute binding is NOT checked
(every sibling handler wraps the same call in LY_CHECK_RET), so a binding
error is dropped and parsing continues with the name slot unset.  After the
children are parsed, the combination of a positive min-elements with any
default is rejected, then min greater than a set numeric max. -/
def yin_parse_leaflist (oracle : Oracle) (attrs : List AttrRecord)
    (content : ElemContent) : Except Err LyspNodeLeaflist :=
  -- parse argument; source line 1461 discards the LY_ERR result
  let st1 := llistBindName attrs
  match yin_parse_content (fun _ => 2) (llistChildHandler oracle)
      leaflist_subelems .leaf_list Option.none st1 content with
  | .error e => .error e
  | .ok st2 =>
    -- invalid combination of subelements
    if st2.min ≠ 0 ∧ st2.dflts ≠ [] then .error .childComb
    else if st2.max ≠ 0 ∧ st2.max < st2.min then .error .invalidMinMax
    else .ok st2

/-- List node, struct lysp_node_list, restricted to the claim-relevant
slots. -/
structure LyspNodeList where
  name : Option String
  min : Nat
  max : Nat
  setMin : Bool
  setMax : Bool
deriving DecidableEq, Repr

/-- Zero-initialized list node. -/
def emptyListNode : LyspNodeList :=
  { name := Option.none, min := 0, max := 0, setMin := false, setMax := false }

/-- Handler switch for the children of a list element: min-elements and
max-elements as for leaf-list, every other table kind writes untracked
slots. -/
def listChildHandler (oracle : Oracle) (st : LyspNodeList) (c : Elem) :
    Except Err LyspNodeList :=
  match Elem.kw c with
  | .min_elements =>
    let st1 := { st with setMin := true }
    match yin_parse_minelements oracle (Elem.attrs c) (Elem.content c) with
    | .error e => .error e
    | .ok n => .ok { st1 with min := n }
  | .max_elements =>
    let st1 := { st with setMax := true }
    match yin_parse_maxelements oracle (Elem.attrs c) (Elem.content c) with
    | .error e => .error e
    | .ok (some n) => .ok { st1 with max := n }
    | .ok Option.none => .ok st1
  | .action => oracleUnit oracle st c
  | .anydata => oracleUnit oracle st c
  | .anyxml => oracleUnit oracle st c
  | .choice => oracleUnit oracle st c
  | .config => oracleUnit oracle st c
  | .container => oracleUnit oracle st c
  | .description => oracleUnit oracle st c
  | .grouping => oracleUnit oracle st c
  | .if_feature => oracleUnit oracle st c
  | .key => oracleUnit oracle st c
  | .leaf => oracleUnit oracle st c
  | .leaf_list => oracleUnit oracle st c
  | .list => oracleUnit oracle st c
  | .must => oracleUnit oracle st c
  | .notification => oracleUnit oracle st c
  | .ordered_by => oracleUnit oracle st c
  | .reference => oracleUnit oracle st c
  | .status => oracleUnit oracle st c
  | .typedef => oracleUnit oracle st c
  | .unique => oracleUnit oracle st c
  | .uses => oracleUnit oracle st c
  | .when => oracleUnit oracle st c
  | .custom => oracleUnit oracle st c
  | _ => .error .internal

/-- Embedding of yin_parse_list (parser_yin.c lines 2099-2155): the name
binding is properly checked here; after the children are parsed and parent
pointers finalized (a pointer fixup with no observable field change,
elided), min greater than a set numeric max is rejected. -/
def yin_parse_list (oracle : Oracle) (attrs : List AttrRecord)
    (content : ElemContent) : Except Err LyspNodeList :=
  match yin_parse_attribute attrs .name .Y_IDENTIF_ARG with
  | .error e => .error e
  | .ok v =>
    let st1 := { emptyListNode with name := v }
    match yin_parse_content (fun _ => 2) (listChildHandler oracle)
        list_subelems .list Option.none st1 content with
    | .error e => .error e
    | .ok st2 =>
      if st2.max ≠ 0 ∧ st2.max < st2.min then .error .invalidMinMax
      else .ok st2

/-- Type node, struct lysp_type, restricted to the enumerant sequences and
their set flags. -/
structure LyspType where
  enums : List LyspTypeEnum
  bits : List LyspTypeEnum
  setEnum : Bool
  setBit : Bool
deriving DecidableEq, Repr

/-- Empty type node. -/
def emptyType : LyspType :=
  { enums := [], bits := [], setEnum := false, setBit := false }

/-- Modelled from the spec: the CHECK_UNIQUENESS macro is declared outside
src/.  It scans the given sized array, excluding its final entry (the one
just appended), for an entry whose name equals the fresh identifier, and
fails with LY_VCODE_DUPIDENT; a NULL (empty) array is not scanned (spec
section 4.4: uniqueness of the name within the sequence is checked
inline). -/
def lyCheckUniqueness (arr : List LyspTypeEnum) (ident : Option String) :
    Except Err Unit :=
  if arr = [] then .ok ()
  else if arr.dropLast.any (fun en => en.name = ident) then .error .dupIdent
  else .ok ()

/-- Handler switch for the children of a bit element: position runs the
numeric value/position parse on the enumerant, the remaining table kinds
write untracked slots. -/
def bitChildHandler (oracle : Oracle) (en : LyspTypeEnum) (c : Elem) :
    Except Err LyspTypeEnum :=
  match Elem.kw c with
  | .position => yin_parse_value_pos_element oracle .position (Elem.attrs c) (Elem.content c) en
  | .description => oracleUnit oracle en c
  | .if_feature => oracleUnit oracle en c
  | .reference => oracleUnit oracle en c
  | .status => oracleUnit oracle en c
  | .custom => oracleUnit oracle en c
  | _ => .error .internal

/-- Embedding of yin_parse_bit (parser_yin.c lines 684-704): append a fresh
enumerant to type->bits, set LYS_SET_BIT, bind the name attribute (checked
with LY_CHECK_RET here), then run CHECK_UNIQUENESS — over type->enums, which
is the array the source passes at line 693 — and parse the children into the
new enumerant. -/
def yin_parse_bit (oracle : Oracle) (t : LyspType) (attrs : List AttrRecord)
    (content : ElemContent) : Except Err LyspType :=
  let t1 := { t with setBit := true }
  match yin_parse_attribute attrs .name .Y_IDENTIF_ARG with
  | .error e => .error e
  | .ok nm =>
    let en1 := { emptyEnum with name := nm }
    -- CHECK_UNIQUENESS(ctx, type->enums, name, "bit", en->name)
    match lyCheckUniqueness t1.enums nm with
    | .error e => .error e
    | .ok _ =>
      match yin_parse_content (fun _ => 2) (bitChildHandler oracle)
          bit_subelems .bit Option.none en1 content with
      | .error e => .error e
      | .ok en2 => .ok { t1 with bits := t1.bits ++ [en2] }

/-- Handler switch for the children of a type element: bit is embedded, all
other table kinds go through the oracle. -/
def typeChildHandler (oracle : Oracle) (t : LyspType) (c : Elem) :
    Except Err LyspType :=
  match Elem.kw c with
  | .bit => yin_parse_bit oracle t (Elem.attrs c) (Elem.content c)
  | .base => oracleUnit oracle t c
  | .enum => oracleUnit oracle t c
  | .fraction_digits => oracleUnit oracle t c
  | .length => oracleUnit oracle t c
  | .path => oracleUnit oracle t c
  | .pattern => oracleUnit oracle t c
  | .range => oracleUnit oracle t c
  | .require_instance => oracleUnit oracle t c
  | .type => oracleUnit oracle t c
  | .custom => oracleUnit oracle t c
  | _ => .error .internal

/-- Content dispatch of yin_parse_type (parser_yin.c lines 1157-1171)
specialized to the enumerant claims: the children of a type element are
routed over the type table (destination-pointer selection for deviate and
nested union members is pointer plumbing with no bearing on the bit
sequence). -/
def yin_parse_type_content (oracle : Oracle) (t : LyspType)
    (content : ElemContent) : Except Err LyspType :=
  yin_parse_content (fun _ => 2) (typeChildHandler oracle)
    type_subelems .type Option.none t content

/-- Oracle that always succeeds with the empty string. -/
def okOracle : Oracle := fun _ => .ok ""

/-- Trivial always-succeeding handler over the unit state, used to
instantiate the generic dispatcher in concrete runs. -/
def okHandler : Unit → Elem → Except Err Unit := fun st _ => .ok st

/-- Attribute-less, content-less element of a given keyword. -/
def bareElem (kw : YangKeyword) : Elem := .mk kw [] .empty

/-- Element with a single unprefixed attribute. -/
def elem1 (kw : YangKeyword) (an av : String) : Elem :=
  .mk kw [{ pfx := Option.none, name := an, content := av }] .empty

/-- Count of children with a given keyword. -/
def countKw (k : YangKeyword) (cs : List Elem) : Nat :=
  cs.countP (fun c => Elem.kw c = k)

/-- Signed decimal value of a sign prefix and digit run. -/
def signedVal (sgn ds : List Char) : Int :=
  if sgn = ['-'] then -(digitsVal ds : Int) else (digitsVal ds : Int)

/-- Unsigned decimal value of a sign prefix and digit run as strtoul
converts it: a minus sign negates the magnitude modulo 2^64. -/
def unsignedVal (sgn ds : List Char) : Nat :=
  if sgn = ['-'] then (2 ^ 64 - digitsVal ds % 2 ^ 64) % 2 ^ 64 else digitsVal ds

/-- Acceptance characterization of the value / position parse: the attribute
value passes the string-class validation, the whole-string guards of lines
995-996 hold, and the string splits as optional C whitespace, an optional
single sign and a nonempty digit run whose converted value lies in the
domain of the statement; w is the decoded integer that gets stored. -/
def valuePosConvertSpec (kw : YangKeyword) (s : List Char) (w : Int) : Prop :=
  s ≠ [] ∧ s.headD ' ' ≠ '+' ∧ ¬(s.headD ' ' = '0' ∧ 1 < s.length) ∧
  (kw = .position → s ≠ ['-', '0']) ∧
  ∃ ws sgn ds, s = ws ++ sgn ++ ds ∧ (∀ c ∈ ws, isspaceC c) ∧
    (sgn = [] ∨ sgn = ['+'] ∨ sgn = ['-']) ∧ ds ≠ [] ∧ (∀ c ∈ ds, isdigitC c) ∧
    (kw = .value →
      -2147483648 ≤ signedVal sgn ds ∧ signedVal sgn ds ≤ 2147483647 ∧
      w = signedVal sgn ds) ∧
    (kw = .position →
      (sgn = ['-'] → digitsVal ds ≤ ulongMax) ∧
      unsignedVal sgn ds ≤ 4294967295 ∧ w = (unsignedVal sgn ds : Int))

/-- Full spec: string-class validation of the attribute value plus the
conversion characterization. -/
def valuePosSpec (kw : YangKeyword) (s : List Char) (w : Int) : Prop :=
  validateChars .Y_STR_ARG s true false = true ∧ valuePosConvertSpec kw s w

/-- Modifier children of a pattern element's content. -/
def patternModifiers : ElemContent → List Elem
  | .elems cs => cs.filter (fun c => Elem.kw c = .modifier)
  | _ => []

/-- Keyword of the last element of a child list, or the given initial
keyword for an empty list: the last_kw the dispatcher sees after the list. -/
def lastKwOf (lk : YangKeyword) (cs : List Elem) : YangKeyword :=
  cs.foldl (fun _ c => Elem.kw c) lk

/-! Helper lemmas about the argument binder. -/

/-- Attributes that the scanning loop skips (prefixed, or empty-named) leave
the loop state untouched. -/
theorem yin_parse_attribute_go_skip (argT : YinArgument) (valT : YangArg)
    (l rest : List AttrRecord) (found : Bool) (acc : Option String)
    (h : ∀ x ∈ l, x.pfx ≠ Option.none ∨ yin_match_argument_name x.name = YinArgument.none) :
    yin_parse_attribute_go argT valT (l ++ rest) found acc =
      yin_parse_attribute_go argT valT rest found acc := by
  induction l with
  | nil => rfl
  | cons a as ih =>
    have ha := h a (by simp)
    have hrest : ∀ x ∈ as, x.pfx ≠ Option.none ∨ yin_match_argument_name x.name = YinArgument.none :=
      fun x hx => h x (by simp [hx])
    rcases ha with hp | hm
    · simpa [yin_parse_attribute_go, hp] using ih hrest
    · by_cases hp : a.pfx = Option.none
      · simpa [yin_parse_attribute_go, hp, hm] using ih hrest
      · simpa [yin_parse_attribute_go, hp] using ih hrest

/-- The scanning loop never reports the assert-model error. -/
theorem yin_parse_attribute_go_ne_assert (argT : YinArgument) (valT : YangArg) :
    ∀ (l : List AttrRecord) (found : Bool) (acc : Option String),
      yin_parse_attribute_go argT valT l found acc ≠ .error .internalAssert := by
  intro l
  induction l with
  | nil => intro found acc; simp [yin_parse_attribute_go]
  | cons a as ih =>
    intro found acc
    simp only [yin_parse_attribute_go]
    by_cases hp : a.pfx = Option.none
    · simp only [hp]
      by_cases hn : yin_match_argument_name a.name = YinArgument.none
      · simpa [hn] using ih found acc
      · by_cases he : yin_match_argument_name a.name = argT
        · have hargT : ¬(argT = YinArgument.none) := he ▸ hn
          cases hf : found
          · simp only [he, hargT, if_false, if_neg hargT]
            cases hv : yin_validate_value valT a.content with
            | error e =>
              unfold yin_validate_value at hv
              by_cases hvc : validateChars valT a.content.data true false = true
              · simp [hvc] at hv
              · simp only [hvc] at hv
                simp only [Bool.false_eq_true, if_false] at hv
                cases hv
                simp [yin_validate_value, hvc]
            | ok u => simpa [hv] using ih true (some a.content)
          · simp [he, hargT, hn]
        · simp [he, hn, hp]
    · simpa [hp] using ih found acc

/-- The argument binder never reports the assert-model error. -/
theorem yin_parse_attribute_ne_assert (attrs : List AttrRecord)
    (argT : YinArgument) (valT : YangArg) :
    yin_parse_attribute attrs argT valT ≠ .error .internalAssert := by
  unfold yin_parse_attribute
  cases hg : yin_parse_attribute_go argT valT attrs false Option.none with
  | error e =>
    intro hc
    simp only at hc
    cases hc
    exact yin_parse_attribute_go_ne_assert argT valT attrs false Option.none hg
  | ok p =>
    obtain ⟨found, acc⟩ := p
    by_cases h : valT ≠ .Y_MAYBE_STR_ARG ∧ found = false <;> simp [h]

/-- C8: for every element and expected argument kind, the argument binder
accepts exactly one unprefixed attribute whose name matches the expected
argument name and interns its validated value; a second matching attribute
fails with DuplicateAttribute, prefixed attributes are silently ignored for
any expected kind, and when the expected kind is not None and the lexical
class is not OptionalString, absence of the matching attribute fails with
MissingAttribute. -/
theorem C8_attribute_binder_contract :
    (∀ (argT : YinArgument) (valT : YangArg) (attrs : List AttrRecord),
        yin_parse_attribute attrs argT valT =
          yin_parse_attribute (attrs.filter (fun x => x.pfx = Option.none)) argT valT) ∧
    (∀ (argT : YinArgument) (valT : YangArg) (l1 l2 : List AttrRecord) (a : AttrRecord),
        argT ≠ YinArgument.none →
        (∀ x ∈ l1 ++ l2, x.pfx ≠ Option.none ∨ yin_match_argument_name x.name = YinArgument.none) →
        a.pfx = Option.none → yin_match_argument_name a.name = argT →
        validateChars valT a.content.data true false = true →
        yin_parse_attribute (l1 ++ a :: l2) argT valT = .ok (some a.content)) ∧
    (∀ (argT : YinArgument) (valT : YangArg) (l1 l2 l3 : List AttrRecord) (a b : AttrRecord),
        argT ≠ YinArgument.none →
        (∀ x ∈ l1 ++ l2, x.pfx ≠ Option.none ∨ yin_match_argument_name x.name = YinArgument.none) →
        a.pfx = Option.none → yin_match_argument_name a.name = argT →
        b.pfx = Option.none → yin_match_argument_name b.name = argT →
        validateChars valT a.content.data true false = true →
        yin_parse_attribute (l1 ++ a :: (l2 ++ b :: l3)) argT valT = .error .dupAttr) ∧
    (∀ (argT : YinArgument) (valT : YangArg) (attrs : List AttrRecord),
        argT ≠ YinArgument.none → valT ≠ .Y_MAYBE_STR_ARG →
        (∀ x ∈ attrs, x.pfx ≠ Option.none ∨ yin_match_argument_name x.name = YinArgument.none) →
        yin_parse_attribute attrs argT valT = .error .missingAttr) := by
  have go_filter : ∀ (argT : YinArgument) (valT : YangArg) (l : List AttrRecord)
      (found : Bool) (acc : Option String),
      yin_parse_attribute_go argT valT l found acc =
        yin_parse_attribute_go argT valT (l.filter (fun x => x.pfx = Option.none)) found acc := by
    intro argT valT l
    induction l with
    | nil => intro found acc; rfl
    | cons a as ih =>
      intro found acc
      by_cases hp : a.pfx = Option.none
      · simp only [List.filter_cons, hp, decide_True, if_true]
        simp only [yin_parse_attribute_go, hp]
        by_cases hn : yin_match_argument_name a.name = YinArgument.none
        · simpa [hn] using ih found acc
        · by_cases he : yin_match_argument_name a.name = argT
          · have hargT : ¬(argT = YinArgument.none) := he ▸ hn
            cases found
            · simp only [he, hargT, if_neg hargT]
              cases hv : yin_validate_value valT a.content with
              | error e => simp [hv]
              | ok u => simpa [hv] using ih true (some a.content)
            · simp [he, hargT]
          · simp [he, hn]
      · have : (a :: as).filter (fun x => x.pfx = Option.none) =
            as.filter (fun x => x.pfx = Option.none) := by
          simp [List.filter_cons, hp]
        rw [this]
        simpa [yin_parse_attribute_go, hp] using ih found acc
  refine ⟨?_, ?_, ?_, ?_⟩
  · intro argT valT attrs
    unfold yin_parse_attribute
    rw [go_filter]
  · intro argT valT l1 l2 a hargT hskip hp he hv
    have h1 : ∀ x ∈ l1, x.pfx ≠ Option.none ∨ yin_match_argument_name x.name = YinArgument.none :=
      fun x hx => hskip x (by simp [hx])
    have h2 : ∀ x ∈ l2, x.pfx ≠ Option.none ∨ yin_match_argument_name x.name = YinArgument.none :=
      fun x hx => hskip x (by simp [hx])
    unfold yin_parse_attribute
    rw [yin_parse_attribute_go_skip argT valT l1 (a :: l2) false Option.none h1]
    have hne : ¬(yin_match_argument_name a.name = YinArgument.none) := he ▸ hargT
    have hval : yin_validate_value valT a.content = .ok () := by
      simp [yin_validate_value, hv]
    simp only [yin_parse_attribute_go, hp, hne, he, if_neg hargT, hval]
    rw [show (l2 : List AttrRecord) = l2 ++ [] by simp,
      yin_parse_attribute_go_skip argT valT l2 [] true (some a.content) h2]
    simp [yin_parse_attribute_go]
  · intro argT valT l1 l2 l3 a b hargT hskip hp he hpb heb hv
    have h1 : ∀ x ∈ l1, x.pfx ≠ Option.none ∨ yin_match_argument_name x.name = YinArgument.none :=
      fun x hx => hskip x (by simp [hx])
    have h2 : ∀ x ∈ l2, x.pfx ≠ Option.none ∨ yin_match_argument_name x.name = YinArgument.none :=
      fun x hx => hskip x (by simp [hx])
    unfold yin_parse_attribute
    rw [yin_parse_attribute_go_skip argT valT l1 (a :: (l2 ++ b :: l3)) false Option.none h1]
    have hne : ¬(yin_match_argument_name a.name = YinArgument.none) := he ▸ hargT
    have hneb : ¬(yin_match_argument_name b.name = YinArgument.none) := heb ▸ hargT
    have hval : yin_validate_value valT a.content = .ok () := by
      simp [yin_validate_value, hv]
    simp only [yin_parse_attribute_go, hp, hne, he, if_neg hargT, hval]
    rw [yin_parse_attribute_go_skip argT valT l2 (b :: l3) true (some a.content) h2]
    simp [yin_parse_attribute_go, hpb, hneb, heb, if_neg hargT]
  · intro argT valT attrs hargT hvalT hskip
    unfold yin_parse_attribute
    rw [show attrs = attrs ++ [] by simp,
      yin_parse_attribute_go_skip argT valT attrs [] false Option.none hskip]
    simp [yin_parse_attribute_go, hvalT]

/-- Witness for C8 at concrete inputs: a single matching value attribute is
accepted, a prefixed attribute next to it is ignored, a duplicate fails with
DuplicateAttribute, and an attribute-less element fails with
MissingAttribute. -/
theorem C8_attribute_binder_contract_witness :
    yin_parse_attribute
        [{ pfx := some "p", name := "x", content := "y" },
         { pfx := Option.none, name := "value", content := "v1" }] .value .Y_STR_ARG =
      .ok (some "v1") ∧
    yin_parse_attribute
        [{ pfx := Option.none, name := "value", content := "v1" },
         { pfx := Option.none, name := "value", content := "v2" }] .value .Y_STR_ARG =
      .error .dupAttr ∧
    yin_parse_attribute ([] : List AttrRecord) .value .Y_STR_ARG = .error .missingAttr := by
  refine ⟨?_, ?_, ?_⟩
  · exact C8_attribute_binder_contract.2.1 .value .Y_STR_ARG
      [{ pfx := some "p", name := "x", content := "y" }] []
      { pfx := Option.none, name := "value", content := "v1" }
      (by decide) (by intro x hx; fin_cases hx <;> simp) rfl (by decide) (by decide)
  · exact C8_attribute_binder_contract.2.2.1 .value .Y_STR_ARG [] [] []
      { pfx := Option.none, name := "value", content := "v1" }
      { pfx := Option.none, name := "value", content := "v2" }
      (by decide) (by intro x hx; simp at hx) rfl (by decide) rfl (by decide) (by decide)
  · exact C8_attribute_binder_contract.2.2.2 .value .Y_STR_ARG []
      (by decide) (by decide) (by intro x hx; simp at hx)

/-! Helper lemmas about the C numeric conversions. -/

/-- Dropping a whitescape prefix skips exactly that prefix. -/
theorem dropWhile_append_all {p : Char → Bool} (l rest : List Char)
    (h : ∀ c ∈ l, p c) : (l ++ rest).dropWhile p = rest.dropWhile p := by
  induction l with
  | nil => rfl
  | cons c cs ih =>
    simp only [List.cons_append, List.dropWhile_cons, h c (by simp)]
    exact ih (fun x hx => h x (by simp [hx]))

/-- A decimal digit is not C whitespace. -/
theorem digit_not_space (c : Char) (h : isdigitC c = true) : isspaceC c = false := by
  simp only [isdigitC, decide_eq_true_eq] at h
  simp only [isspaceC, decide_eq_false_iff_not]
  push_neg
  omega

/-- A decimal digit is neither a plus nor a minus sign. -/
theorem digit_not_sign (c : Char) (h : isdigitC c = true) : c ≠ '-' ∧ c ≠ '+' := by
  constructor <;> intro hc <;> rw [hc] at h <;> simp [isdigitC] at h

/-- Taking the digit prefix of an all-digit run followed by a non-digit
remainder yields exactly the run and the remainder. -/
theorem takeWhile_all_append (p : Char → Bool) (ds rest : List Char)
    (hdig : ∀ c ∈ ds, p c)
    (hrest : ∀ r rs, rest = r :: rs → p r = false) :
    (ds ++ rest).takeWhile p = ds ∧ (ds ++ rest).dropWhile p = rest := by
  induction ds with
  | nil =>
    cases rest with
    | nil => exact ⟨rfl, rfl⟩
    | cons r rs =>
      simp [List.takeWhile_cons, List.dropWhile_cons, hrest r rs rfl]
  | cons d ds' ih =>
    have hd : p d = true := hdig d (by simp)
    have := ih (fun c hc => hdig c (by simp [hc]))
    simp only [List.cons_append, List.takeWhile_cons, List.dropWhile_cons, hd, if_true]
    exact ⟨by rw [this.1], by rw [this.2]⟩

/-- Scan of a string assembled from whitespace, an optional sign and a
nonempty digit run followed by a remainder not starting with a digit. -/
theorem cnumScan_of_decomp (ws sgn ds rest : List Char)
    (hws : ∀ c ∈ ws, isspaceC c)
    (hsgn : sgn = [] ∨ sgn = ['+'] ∨ sgn = ['-'])
    (hds : ds ≠ []) (hdig : ∀ c ∈ ds, isdigitC c)
    (hrest : ∀ r rs, rest = r :: rs → isdigitC r = false) :
    cnumScan (ws ++ sgn ++ ds ++ rest) =
      (decide (sgn = ['-']), ds, rest) := by
  obtain ⟨d, ds', hd⟩ : ∃ d ds', ds = d :: ds' := by
    cases ds with
    | nil => exact absurd rfl hds
    | cons d ds' => exact ⟨d, ds', rfl⟩
  have hddig : isdigitC d := hdig d (by simp [hd])
  have hsplit := takeWhile_all_append isdigitC ds rest hdig hrest
  have hdropws : ∀ t : List Char, (ws ++ t).dropWhile isspaceC = t.dropWhile isspaceC :=
    fun t => dropWhile_append_all ws t hws
  rcases hsgn with h | h | h
  · subst h
    have hne : ¬(d = '-' ∨ d = '+') := by
      rcases digit_not_sign d hddig with ⟨h1, h2⟩
      push_neg
      exact ⟨h1, h2⟩
    have hdrop : (ws ++ [] ++ ds ++ rest).dropWhile isspaceC = ds ++ rest := by
      rw [show ws ++ [] ++ ds ++ rest = ws ++ (ds ++ rest) by simp, hdropws, hd]
      simp [List.dropWhile_cons, digit_not_space d hddig]
    have hhead : (ds ++ rest).headD ' ' = d := by
      rw [hd]
      simp
    simp only [cnumScan, hdrop, hhead]
    rw [if_neg hne, hsplit.1, hsplit.2]
    rcases digit_not_sign d hddig with ⟨h1, _⟩
    simp [h1]
  · subst h
    have hdrop : (ws ++ ['+'] ++ ds ++ rest).dropWhile isspaceC = '+' :: (ds ++ rest) := by
      rw [show ws ++ ['+'] ++ ds ++ rest = ws ++ ('+' :: (ds ++ rest)) by simp, hdropws]
      simp [List.dropWhile_cons, isspaceC]
    simp only [cnumScan, hdrop, List.headD_cons, List.tail_cons]
    rw [if_pos (by simp), hsplit.1, hsplit.2]
    simp
  · subst h
    have hdrop : (ws ++ ['-'] ++ ds ++ rest).dropWhile isspaceC = '-' :: (ds ++ rest) := by
      rw [show ws ++ ['-'] ++ ds ++ rest = ws ++ ('-' :: (ds ++ rest)) by simp, hdropws]
      simp [List.dropWhile_cons, isspaceC]
    simp only [cnumScan, hdrop, List.headD_cons, List.tail_cons]
    rw [if_pos (by simp), hsplit.1, hsplit.2]

/-- Every scan with a nonempty digit run arises from a whitespace / sign /
digits / remainder decomposition of the input. -/
theorem cnumScan_decomp_of (s : List Char)
    (hne : (cnumScan s).2.1 ≠ []) :
    ∃ ws sgn, s = ws ++ sgn ++ (cnumScan s).2.1 ++ (cnumScan s).2.2 ∧
      (∀ c ∈ ws, isspaceC c) ∧ (sgn = [] ∨ sgn = ['+'] ∨ sgn = ['-']) ∧
      (∀ c ∈ (cnumScan s).2.1, isdigitC c) ∧
      (cnumScan s).1 = decide (sgn = ['-']) := by
  have hsw : s = s.takeWhile isspaceC ++ s.dropWhile isspaceC :=
    (List.takeWhile_append_dropWhile isspaceC s).symm
  have hws : ∀ c ∈ s.takeWhile isspaceC, isspaceC c :=
    fun c hc => List.mem_takeWhile_imp hc
  have hbody : ∀ t : List Char, t.takeWhile isdigitC ++ t.dropWhile isdigitC = t :=
    fun t => List.takeWhile_append_dropWhile isdigitC t
  have hdig : ∀ t : List Char, ∀ c ∈ t.takeWhile isdigitC, isdigitC c :=
    fun t c hc => List.mem_takeWhile_imp hc
  by_cases hsign : (s.dropWhile isspaceC).headD ' ' = '-' ∨ (s.dropWhile isspaceC).headD ' ' = '+'
  · have hwne : s.dropWhile isspaceC ≠ [] := by
      intro hnil
      rw [hnil] at hsign
      rcases hsign with h | h <;> simp at h
    obtain ⟨c, t, hct⟩ : ∃ c t, s.dropWhile isspaceC = c :: t := by
      cases hw : s.dropWhile isspaceC with
      | nil => exact absurd hw hwne
      | cons c t => exact ⟨c, t, rfl⟩
    have hsign' : c = '-' ∨ c = '+' := by
      rw [hct] at hsign
      simpa using hsign
    have hscan : cnumScan s = (decide (c = '-'), t.takeWhile isdigitC, t.dropWhile isdigitC) := by
      simp only [cnumScan, hct, List.headD_cons, List.tail_cons]
      rw [if_pos hsign']
    refine ⟨s.takeWhile isspaceC, [c], ?_, hws, ?_, ?_, ?_⟩
    · rw [hscan]
      show s = s.takeWhile isspaceC ++ [c] ++ t.takeWhile isdigitC ++ t.dropWhile isdigitC
      rw [List.append_assoc, hbody t]
      rw [show s.takeWhile isspaceC ++ [c] ++ t = s.takeWhile isspaceC ++ (c :: t) by simp]
      rw [← hct]
      exact hsw
    · rcases hsign' with h | h
      · subst h; exact Or.inr (Or.inr rfl)
      · subst h; exact Or.inr (Or.inl rfl)
    · rw [hscan]
      exact fun d hd => hdig t d hd
    · rw [hscan]
      rcases hsign' with h | h <;> subst h <;> simp
  · have hsign' : ¬((s.dropWhile isspaceC).headD ' ' = '-' ∨ (s.dropWhile isspaceC).headD ' ' = '+') :=
      hsign
    have hscan : cnumScan s =
        (false, (s.dropWhile isspaceC).takeWhile isdigitC,
          (s.dropWhile isspaceC).dropWhile isdigitC) := by
      simp only [cnumScan]
      rw [if_neg hsign']
      push_neg at hsign'
      rw [decide_eq_false hsign'.1]
    refine ⟨s.takeWhile isspaceC, [], ?_, hws, Or.inl rfl, ?_, ?_⟩
    · rw [hscan]
      show s = s.takeWhile isspaceC ++ [] ++ (s.dropWhile isspaceC).takeWhile isdigitC ++
        (s.dropWhile isspaceC).dropWhile isdigitC
      rw [List.append_nil, List.append_assoc, hbody (s.dropWhile isspaceC)]
      exact hsw
    · rw [hscan]
      exact fun d hd => hdig _ d hd
    · rw [hscan]
      simp

/-- Value of strtol on a fully-consumed decomposed numeral. -/
theorem strtol_of_decomp (ws sgn ds : List Char)
    (hws : ∀ c ∈ ws, isspaceC c)
    (hsgn : sgn = [] ∨ sgn = ['+'] ∨ sgn = ['-'])
    (hds : ds ≠ []) (hdig : ∀ c ∈ ds, isdigitC c) :
    strtol_m (ws ++ sgn ++ ds) =
      (if signedVal sgn ds < longMin then { val := longMin, rest := [], erange := true }
       else if longMax < signedVal sgn ds then { val := longMax, rest := [], erange := true }
       else { val := signedVal sgn ds, rest := [], erange := false }) := by
  have hscan : cnumScan (ws ++ sgn ++ ds) = (decide (sgn = ['-']), ds, []) := by
    have := cnumScan_of_decomp ws sgn ds [] hws hsgn hds hdig (by intro r rs h; cases h)
    simpa using this
  simp only [strtol_m, hscan, hds, if_neg hds]
  have hv : (if decide (sgn = ['-']) = true then -(digitsVal ds : Int) else (digitsVal ds : Int)) =
      signedVal sgn ds := by
    by_cases h : sgn = ['-'] <;> simp [h, signedVal]
  simp only [decide_eq_true_eq] at hv ⊢
  rw [hv]
  simp

/-- Value of strtoul on a fully-consumed decomposed numeral. -/
theorem strtoul_of_decomp (ws sgn ds : List Char)
    (hws : ∀ c ∈ ws, isspaceC c)
    (hsgn : sgn = [] ∨ sgn = ['+'] ∨ sgn = ['-'])
    (hds : ds ≠ []) (hdig : ∀ c ∈ ds, isdigitC c) :
    strtoul_m (ws ++ sgn ++ ds) =
      (if ulongMax < digitsVal ds then { val := ulongMax, rest := [], erange := true }
       else { val := unsignedVal sgn ds, rest := [], erange := false }) := by
  have hscan : cnumScan (ws ++ sgn ++ ds) = (decide (sgn = ['-']), ds, []) := by
    have := cnumScan_of_decomp ws sgn ds [] hws hsgn hds hdig (by intro r rs h; cases h)
    simpa using this
  simp only [strtoul_m, hscan, hds, if_neg hds]
  by_cases hm : ulongMax < digitsVal ds
  · simp [hm]
  · have hv : (if decide (sgn = ['-']) = true then (2 ^ 64 - digitsVal ds % 2 ^ 64) % 2 ^ 64
        else digitsVal ds) = unsignedVal sgn ds := by
      by_cases h : sgn = ['-'] <;> simp [h, unsignedVal]
    simp only [decide_eq_true_eq] at hv ⊢
    simp only [hm, if_false]
    rw [hv]

/-- An accepted strtol conversion (all input consumed, no range error)
exhibits a fully-consumed decomposed numeral with the exact signed value. -/
theorem strtol_accept_forward (s : List Char) (hne : s ≠ [])
    (hrest : (strtol_m s).rest = []) (herange : (strtol_m s).erange = false) :
    ∃ ws sgn ds, s = ws ++ sgn ++ ds ∧ (∀ c ∈ ws, isspaceC c) ∧
      (sgn = [] ∨ sgn = ['+'] ∨ sgn = ['-']) ∧ ds ≠ [] ∧ (∀ c ∈ ds, isdigitC c) ∧
      (strtol_m s).val = signedVal sgn ds := by
  by_cases hd : (cnumScan s).2.1 = []
  · exfalso
    simp only [strtol_m, hd, if_pos rfl] at hrest
    exact hne hrest
  · obtain ⟨ws, sgn, hdec, hws, hsgn, hdig, hneg⟩ := cnumScan_decomp_of s hd
    have hval : strtol_m s =
        (if signedVal sgn (cnumScan s).2.1 < longMin then
           { val := longMin, rest := (cnumScan s).2.2, erange := true }
         else if longMax < signedVal sgn (cnumScan s).2.1 then
           { val := longMax, rest := (cnumScan s).2.2, erange := true }
         else { val := signedVal sgn (cnumScan s).2.1, rest := (cnumScan s).2.2, erange := false }) := by
      simp only [strtol_m, hd, if_neg hd]
      have hv : (if (cnumScan s).1 = true then -(digitsVal (cnumScan s).2.1 : Int)
          else (digitsVal (cnumScan s).2.1 : Int)) = signedVal sgn (cnumScan s).2.1 := by
        rw [hneg]
        by_cases h : sgn = ['-'] <;> simp [h, signedVal]
      rw [hv]
      simp
    by_cases h1 : signedVal sgn (cnumScan s).2.1 < longMin
    · rw [hval, if_pos h1] at herange
      simp at herange
    · by_cases h2 : longMax < signedVal sgn (cnumScan s).2.1
      · rw [hval, if_neg h1, if_pos h2] at herange
        simp at herange
      · rw [hval, if_neg h1, if_neg h2] at hrest ⊢
        simp only at hrest ⊢
        refine ⟨ws, sgn, (cnumScan s).2.1, ?_, hws, hsgn, hd, hdig, rfl⟩
        conv_lhs => rw [hdec]
        rw [hrest]
        simp

/-- An accepted strtoul conversion exhibits a fully-consumed decomposed
numeral whose magnitude fits unsigned long, with the modular value. -/
theorem strtoul_accept_forward (s : List Char) (hne : s ≠ [])
    (hrest : (strtoul_m s).rest = []) (herange : (strtoul_m s).erange = false) :
    ∃ ws sgn ds, s = ws ++ sgn ++ ds ∧ (∀ c ∈ ws, isspaceC c) ∧
      (sgn = [] ∨ sgn = ['+'] ∨ sgn = ['-']) ∧ ds ≠ [] ∧ (∀ c ∈ ds, isdigitC c) ∧
      digitsVal ds ≤ ulongMax ∧
      (strtoul_m s).val = unsignedVal sgn ds := by
  by_cases hd : (cnumScan s).2.1 = []
  · exfalso
    simp only [strtoul_m, hd, if_pos rfl] at hrest
    exact hne hrest
  · obtain ⟨ws, sgn, hdec, hws, hsgn, hdig, hneg⟩ := cnumScan_decomp_of s hd
    by_cases hm : ulongMax < digitsVal (cnumScan s).2.1
    · exfalso
      simp only [strtoul_m, hd, if_neg hd, hm, if_pos hm] at herange
      simp at herange
    · have hval : strtoul_m s =
          { val := unsignedVal sgn (cnumScan s).2.1, rest := (cnumScan s).2.2, erange := false } := by
        simp only [strtoul_m, hd, if_neg hd, hm, if_false]
        have hv : (if (cnumScan s).1 = true then (2 ^ 64 - digitsVal (cnumScan s).2.1 % 2 ^ 64) % 2 ^ 64
            else digitsVal (cnumScan s).2.1) = unsignedVal sgn (cnumScan s).2.1 := by
          rw [hneg]
          by_cases h : sgn = ['-'] <;> simp [h, unsignedVal]
        rw [hv]
      rw [hval] at hrest ⊢
      simp only at hrest ⊢
      refine ⟨ws, sgn, (cnumScan s).2.1, ?_, hws, hsgn, hd, hdig, le_of_not_lt hm, rfl⟩
      conv_lhs => rw [hdec]
      rw [hrest]
      simp

/-- Characterization of the conversion core: it returns a decoded integer
exactly on the inputs described by valuePosConvertSpec. -/
theorem value_pos_convert_iff (kw : YangKeyword) (s : List Char) (w : Int)
    (hkw : kw = .value ∨ kw = .position) :
    value_pos_convert kw s = .ok w ↔ valuePosConvertSpec kw s w := by
  unfold value_pos_convert
  by_cases hg : s = [] ∨ s.headD ' ' = '+' ∨ (s.headD ' ' = '0' ∧ 1 < s.length) ∨
      (kw = .position ∧ s = ['-', '0'])
  · rw [if_pos hg]
    constructor
    · intro h
      cases h
    · rintro ⟨h1, h2, h3, h4, _⟩
      rcases hg with h | h | h | h
      exacts [absurd h h1, absurd h h2, absurd h h3, absurd h.2 (h4 h.1)]
  · rw [if_neg hg]
    push_neg at hg
    obtain ⟨hg1, hg2, hg3, hg4⟩ := hg
    rcases hkw with hkw | hkw
    · subst hkw
      rw [if_pos rfl]
      by_cases h1 : (strtol_m s).val < -2147483648 ∨ 2147483647 < (strtol_m s).val
      · rw [if_pos h1]
        constructor
        · intro h
          cases h
        · rintro ⟨_, _, _, _, ws, sgn, ds, hdec, hws, hsgn, hds, hdig, hv, _⟩
          obtain ⟨hlo, hhi, hw⟩ := hv rfl
          have := strtol_of_decomp ws sgn ds hws hsgn hds hdig
          rw [← hdec] at this
          rw [this] at h1
          rw [if_neg (by unfold longMin; omega), if_neg (by unfold longMax; omega)] at h1
          simp only at h1
          omega
      · rw [if_neg h1]
        simp only
        by_cases h2 : (strtol_m s).rest = []
        · by_cases h3 : (strtol_m s).erange = true
          · rw [if_neg (by simpa using h2), if_pos h3]
            constructor
            · intro h
              cases h
            · rintro ⟨_, _, _, _, ws, sgn, ds, hdec, hws, hsgn, hds, hdig, hv, _⟩
              obtain ⟨hlo, hhi, hw⟩ := hv rfl
              have := strtol_of_decomp ws sgn ds hws hsgn hds hdig
              rw [← hdec] at this
              rw [this] at h3
              rw [if_neg (by unfold longMin; omega), if_neg (by unfold longMax; omega)] at h3
              simp at h3
          · rw [if_neg (by simpa using h2), if_neg h3]
            constructor
            · intro h
              have hw : (strtol_m s).val = w := by
                cases h
                rfl
              obtain ⟨ws, sgn, ds, hdec, hws, hsgn, hds, hdig, hval⟩ :=
                strtol_accept_forward s hg1 h2 (by simpa using h3)
              have hg3' : ¬(s.headD ' ' = '0' ∧ 1 < s.length) := fun hc => by
                have := hg3 hc.1
                omega
              refine ⟨hg1, hg2, hg3', fun h => (hg4 h), ws, sgn, ds, hdec, hws, hsgn, hds, hdig,
                fun _ => ⟨?_, ?_, ?_⟩, fun hpos => ?_⟩
              · rw [← hval]
                omega
              · rw [← hval]
                omega
              · rw [← hw, hval]
              · cases hpos
            · rintro ⟨_, _, _, _, ws, sgn, ds, hdec, hws, hsgn, hds, hdig, hv, _⟩
              obtain ⟨hlo, hhi, hw⟩ := hv rfl
              have hsl := strtol_of_decomp ws sgn ds hws hsgn hds hdig
              rw [← hdec] at hsl
              rw [hsl, if_neg (by unfold longMin; omega), if_neg (by unfold longMax; omega)]
              simp only [Except.ok.injEq]
              omega
        · rw [if_pos (by simpa using h2)]
          constructor
          · intro h
            cases h
          · rintro ⟨_, _, _, _, ws, sgn, ds, hdec, hws, hsgn, hds, hdig, hv, _⟩
            obtain ⟨hlo, hhi, hw⟩ := hv rfl
            have hsl := strtol_of_decomp ws sgn ds hws hsgn hds hdig
            rw [← hdec] at hsl
            rw [hsl, if_neg (by unfold longMin; omega), if_neg (by unfold longMax; omega)] at h2
            simp at h2
    · subst hkw
      rw [if_neg (by intro h; cases h)]
      by_cases h1 : 4294967295 < (strtoul_m s).val
      · rw [if_pos h1]
        constructor
        · intro h
          cases h
        · rintro ⟨_, _, _, _, ws, sgn, ds, hdec, hws, hsgn, hds, hdig, _, hv⟩
          obtain ⟨hfit, hle, hw⟩ := hv rfl
          have := strtoul_of_decomp ws sgn ds hws hsgn hds hdig
          rw [← hdec] at this
          have hmle : digitsVal ds ≤ ulongMax := by
            by_cases hneg : sgn = ['-']
            · exact hfit hneg
            · have : unsignedVal sgn ds = digitsVal ds := by simp [unsignedVal, hneg]
              rw [this] at hle
              unfold ulongMax
              omega
          rw [this, if_neg (by omega)] at h1
          simp only at h1
          omega
      · rw [if_neg h1]
        simp only
        by_cases h2 : (strtoul_m s).rest = []
        · by_cases h3 : (strtoul_m s).erange = true
          · rw [if_neg (by simpa using h2), if_pos h3]
            constructor
            · intro h
              cases h
            · rintro ⟨_, _, _, _, ws, sgn, ds, hdec, hws, hsgn, hds, hdig, _, hv⟩
              obtain ⟨hfit, hle, hw⟩ := hv rfl
              have hso := strtoul_of_decomp ws sgn ds hws hsgn hds hdig
              rw [← hdec] at hso
              have hmle : digitsVal ds ≤ ulongMax := by
                by_cases hneg : sgn = ['-']
                · exact hfit hneg
                · have : unsignedVal sgn ds = digitsVal ds := by simp [unsignedVal, hneg]
                  rw [this] at hle
                  unfold ulongMax
                  omega
              rw [hso, if_neg (by omega)] at h3
              simp at h3
          · rw [if_neg (by simpa using h2), if_neg h3]
            constructor
            · intro h
              have hw : ((strtoul_m s).val : Int) = w := by
                cases h
                rfl
              obtain ⟨ws, sgn, ds, hdec, hws, hsgn, hds, hdig, hfit, hval⟩ :=
                strtoul_accept_forward s hg1 h2 (by simpa using h3)
              have hg3' : ¬(s.headD ' ' = '0' ∧ 1 < s.length) := fun hc => by
                have := hg3 hc.1
                omega
              refine ⟨hg1, hg2, hg3', fun _ => hg4 rfl, ws, sgn, ds, hdec, hws, hsgn, hds, hdig,
                fun hv => ?_, fun _ => ⟨fun _ => hfit, ?_, ?_⟩⟩
              · cases hv
              · rw [← hval]
                omega
              · rw [← hw, hval]
            · rintro ⟨_, _, _, _, ws, sgn, ds, hdec, hws, hsgn, hds, hdig, _, hv⟩
              obtain ⟨hfit, hle, hw⟩ := hv rfl
              have hso := strtoul_of_decomp ws sgn ds hws hsgn hds hdig
              rw [← hdec] at hso
              have hmle : digitsVal ds ≤ ulongMax := by
                by_cases hneg : sgn = ['-']
                · exact hfit hneg
                · have : unsignedVal sgn ds = digitsVal ds := by simp [unsignedVal, hneg]
                  rw [this] at hle
                  unfold ulongMax
                  omega
              rw [hso, if_neg (by omega)]
              simp only [Except.ok.injEq]
              omega
        · rw [if_pos (by simpa using h2)]
          constructor
          · intro h
            cases h
          · rintro ⟨_, _, _, _, ws, sgn, ds, hdec, hws, hsgn, hds, hdig, _, hv⟩
            obtain ⟨hfit, hle, hw⟩ := hv rfl
            have hso := strtoul_of_decomp ws sgn ds hws hsgn hds hdig
            rw [← hdec] at hso
            have hmle : digitsVal ds ≤ ulongMax := by
              by_cases hneg : sgn = ['-']
              · exact hfit hneg
              · have : unsignedVal sgn ds = digitsVal ds := by simp [unsignedVal, hneg]
                rw [this] at hle
                unfold ulongMax
                omega
            rw [hso, if_neg (by omega)] at h2
            simp at h2

/-- Evaluation of the argument binder on a single unprefixed value
attribute. -/
theorem binder_single_value (v : String) :
    yin_parse_attribute [{ pfx := Option.none, name := "value", content := v }]
        .value .Y_STR_ARG =
      (if validateChars .Y_STR_ARG v.data true false then .ok (some v)
       else .error .invalidChar) := by
  by_cases h : validateChars .Y_STR_ARG v.data true false = true <;>
    simp [yin_parse_attribute, yin_parse_attribute_go, yin_validate_value, h,
      show yin_match_argument_name "value" = YinArgument.value from rfl]

/-- Child dispatch over the extension-only table with no children
succeeds and leaves the state untouched. -/
theorem yin_parse_content_custom_nil {σ : Type} (ver : σ → Nat)
    (handler : σ → Elem → Except Err σ) (kw : YangKeyword) (st : σ) :
    yin_parse_content ver handler custom_only_subelems kw Option.none st (.elems []) =
      .ok st := rfl

/-- C3 (amended): for a value or position element carrying one value
attribute, the parse succeeds storing the decoded integer exactly when the
attribute value satisfies valuePosSpec: the stated lexical guards apply to
the first character of the raw string, the conversion skips C-locale
leading whitespace and accepts a sign there, and a minus-signed literal for
position is converted modulo 2^64 before the uint32 range check. -/
theorem C3_value_pos_characterization (oracle : Oracle) (kw : YangKeyword)
    (v : String) (w : Int) (hkw : kw = .value ∨ kw = .position) :
    (yin_parse_value_pos_element oracle kw
        [{ pfx := Option.none, name := "value", content := v }] (.elems []) emptyEnum =
      .ok { name := Option.none, value := w, valueSet := true }) ↔
      valuePosSpec kw v.data w := by
  unfold yin_parse_value_pos_element
  rw [binder_single_value]
  by_cases hval : validateChars .Y_STR_ARG v.data true false = true
  · rw [if_pos hval]
    simp only
    have hconv := value_pos_convert_iff kw v.data w hkw
    cases hc : value_pos_convert kw v.data with
    | error e =>
      simp only
      constructor
      · intro h
        cases h
      · intro hspec
        have : value_pos_convert kw v.data = .ok w := hconv.2 hspec.2
        rw [hc] at this
        cases this
    | ok num =>
      simp only
      rw [yin_parse_content_custom_nil]
      simp only [Except.ok.injEq]
      constructor
      · intro h
        refine ⟨hval, hconv.1 ?_⟩
        rw [hc]
        have : num = w := by
          have := congrArg LyspTypeEnum.value h
          simpa [emptyEnum] using this
        rw [this]
      · intro hspec
        have : value_pos_convert kw v.data = .ok w := hconv.2 hspec.2
        rw [hc] at this
        cases this
        rfl
  · rw [if_neg hval]
    simp only
    constructor
    · intro h
      cases h
    · intro hspec
      exact absurd hspec.1 hval

/-- Counterexample to C3 as stated: the literal "-007" has leading zeros and
is not exactly "0", so the claim requires rejection, but the leading-zero
guard examines only the first character and the parse accepts it, storing
-7. -/
theorem C3_counterexample :
    yin_parse_value_pos_element okOracle .value
        [{ pfx := Option.none, name := "value", content := "-007" }] (.elems []) emptyEnum =
      .ok { name := Option.none, value := -7, valueSet := true } := by
  rfl

/-- Witness for C3: the characterization applied at the literal "123"
accepted with decoded value 123. -/
theorem C3_value_pos_characterization_witness :
    yin_parse_value_pos_element okOracle .value
        [{ pfx := Option.none, name := "value", content := "123" }] (.elems []) emptyEnum =
      .ok { name := Option.none, value := 123, valueSet := true } := by
  refine (C3_value_pos_characterization okOracle .value "123" 123 (Or.inl rfl)).2 ?_
  refine ⟨by decide, by decide, by decide, by decide, by decide,
    [], [], ['1', '2', '3'], by decide, by decide, by decide, by decide, by decide,
    fun _ => ⟨by decide, by decide, by decide⟩, fun h => by cases h⟩

/-! Helper lemmas about the child dispatcher. -/

/-- The binary search only answers indices in range holding the searched
keyword. -/
theorem get_record_go_some (kw : YangKeyword) (l : List YinSubelement) :
    ∀ (fuel : Nat) (left right : Int), 0 ≤ left → right < (l.length : Int) →
      ∀ i, get_record_go kw l fuel left right = some i →
        i < l.length ∧ (l.getD i dummySubelem).type = kw := by
  intro fuel
  induction fuel with
  | zero => intro left right _ _ i h; cases h
  | succ fuel ih =>
    intro left right hl hr i h
    simp only [get_record_go] at h
    by_cases hlr : left ≤ right
    · rw [if_pos hlr] at h
      set middle : Int := left + (right - left) / 2 with hmid
      have hm0 : 0 ≤ middle := by
        have : 0 ≤ (right - left) / 2 := Int.ediv_nonneg (by omega) (by omega)
        omega
      have hmr : middle ≤ right := by
        have : (right - left) / 2 ≤ right - left := Int.ediv_le_self 2 (by omega)
        omega
      have hmlen : middle.toNat < l.length := by
        have : middle < (l.length : Int) := lt_of_le_of_lt hmr hr
        omega
      by_cases he : (l.getD middle.toNat dummySubelem).type = kw
      · rw [if_pos he] at h
        cases h
        exact ⟨hmlen, he⟩
      · rw [if_neg he] at h
        by_cases hlt : kwIdx (l.getD middle.toNat dummySubelem).type < kwIdx kw
        · rw [if_pos hlt] at h
          exact ih (middle + 1) right (by omega) hr i h
        · rw [if_neg hlt] at h
          exact ih left (middle - 1) hl (by omega) i h
    · rw [if_neg hlr] at h
      cases h

/-- get_record only answers indices in range holding the searched keyword. -/
theorem get_record_some (kw : YangKeyword) (l : List YinSubelement) (i : Nat)
    (h : get_record kw l = some i) :
    i < l.length ∧ (l.getD i dummySubelem).type = kw :=
  get_record_go_some kw l (l.length + 1) 0 ((l.length : Int) - 1)
    (by omega) (by omega) i h

/-- Entry reads after a type-preserving update. -/
theorem getD_set_type (l : List YinSubelement) (j m : Nat) (e' : YinSubelement)
    (hty : e'.type = (l.getD j dummySubelem).type) :
    ((l.set j e').getD m dummySubelem).type = (l.getD m dummySubelem).type := by
  by_cases hm : m = j
  · subst hm
    by_cases hj : m < l.length
    · rw [List.getD_eq_getElem?_getD, List.getElem?_set_self (by omega)]
      simp only [Option.getD_some]
      rw [hty, List.getD_eq_getElem?_getD]
    · rw [List.set_eq_of_length_le (by omega)]
  · rw [List.getD_eq_getElem?_getD, List.getElem?_set_ne (Ne.symm hm),
      ← List.getD_eq_getElem?_getD]

/-- Entry reads at other indices are unchanged by an update. -/
theorem getD_set_ne (l : List YinSubelement) (j m : Nat) (e' : YinSubelement)
    (hm : m ≠ j) :
    ((l.set j e').getD m dummySubelem) = (l.getD m dummySubelem) := by
  rw [List.getD_eq_getElem?_getD, List.getElem?_set_ne (Ne.symm hm),
    ← List.getD_eq_getElem?_getD]

/-- The binary search is unchanged by a type-preserving update. -/
theorem get_record_go_set (kw : YangKeyword) (l : List YinSubelement) (j : Nat)
    (e' : YinSubelement) (hty : e'.type = (l.getD j dummySubelem).type) :
    ∀ (fuel : Nat) (left right : Int),
      get_record_go kw (l.set j e') fuel left right = get_record_go kw l fuel left right := by
  intro fuel
  induction fuel with
  | zero => intro left right; rfl
  | succ fuel ih =>
    intro left right
    simp only [get_record_go, List.length_set]
    by_cases hlr : left ≤ right
    · rw [if_pos hlr, if_pos hlr]
      set middle : Int := left + (right - left) / 2
      rw [getD_set_type l j middle.toNat e' hty]
      by_cases he : (l.getD middle.toNat dummySubelem).type = kw
      · rw [if_pos he, if_pos he]
      · rw [if_neg he, if_neg he]
        by_cases hlt : kwIdx (l.getD middle.toNat dummySubelem).type < kwIdx kw
        · rw [if_pos hlt, if_pos hlt, ih]
        · rw [if_neg hlt, if_neg hlt, ih]
    · rw [if_neg hlr, if_neg hlr]

/-- get_record is unchanged by a type-preserving update. -/
theorem get_record_set (kw : YangKeyword) (l : List YinSubelement) (j : Nat)
    (e' : YinSubelement) (hty : e'.type = (l.getD j dummySubelem).type) :
    get_record kw (l.set j e') = get_record kw l := by
  unfold get_record
  rw [List.length_set]
  exact get_record_go_set kw l j e' hty (l.length + 1) 0 ((l.length : Int) - 1)

/-- Inversion of one successful per-child step: the child's keyword was
found in the table, the unique check passed, the order check passed when the
parent demands it, the handler succeeded, and the table gained the parsed
mark at the found entry. -/
theorem step_ok_inv {σ : Type} (ver : σ → Nat) (handler : σ → Elem → Except Err σ)
    (parrent : YangKeyword) (info : List YinSubelement) (lastKw : YangKeyword)
    (st : σ) (c : Elem) (info2 : List YinSubelement) (st2 : σ)
    (h : yin_parse_content_step ver handler parrent info lastKw st c = .ok (info2, st2)) :
    ∃ i, get_record (Elem.kw c) info = some i ∧
      ¬((info.getD i dummySubelem).flags.unique ∧ (info.getD i dummySubelem).flags.parsed) ∧
      ((parrent = .module ∨ parrent = .submodule) →
        yin_check_relative_order lastKw (Elem.kw c) = .ok ()) ∧
      handler st c = .ok st2 ∧
      info2 = info.set i (setParsed (info.getD i dummySubelem)) := by
  unfold yin_parse_content_step at h
  cases hj : get_record (Elem.kw c) info with
  | none =>
    rw [hj] at h
    simp only at h
    by_cases hd : parrent = YangKeyword.deviate ∧ isdevsub (Elem.kw c) <;>
      simp [hd] at h
  | some i =>
    rw [hj] at h
    simp only at h
    refine ⟨i, rfl, ?_⟩
    cases ho : (if parrent = YangKeyword.module ∨ parrent = YangKeyword.submodule then
        yin_check_relative_order lastKw (Elem.kw c) else .ok ()) with
    | error er => rw [ho] at h; simp at h
    | ok u =>
      rw [ho] at h
      simp only at h
      by_cases hu : (info.getD i dummySubelem).flags.unique ∧ (info.getD i dummySubelem).flags.parsed
      · rw [if_pos hu] at h
        cases h
      · rw [if_neg hu] at h
        cases hf : (if (info.getD i dummySubelem).flags.first then
            yin_check_subelem_first_constraint info else .ok ()) with
        | error er => rw [hf] at h; simp at h
        | ok u2 =>
          rw [hf] at h
          simp only at h
          by_cases hv2 : (info.getD i dummySubelem).flags.ver2 ∧ ver st < 2
          · rw [if_pos hv2] at h
            cases h
          · rw [if_neg hv2] at h
            cases hh : handler st c with
            | error er => rw [hh] at h; simp at h
            | ok stx =>
              rw [hh] at h
              simp only [Except.ok.injEq, Prod.mk.injEq] at h
              refine ⟨hu, ?_, ?_, ?_⟩
              · intro hmods
                rw [if_pos hmods] at ho
                cases u
                exact ho
              · exact congrArg Except.ok h.2
              · exact h.1.symm

/-- Inversion of one successful dispatcher step at the loop level. -/
theorem loop_cons_ok {σ : Type} (ver : σ → Nat) (handler : σ → Elem → Except Err σ)
    (parrent : YangKeyword) (info : List YinSubelement) (lastKw : YangKeyword)
    (st : σ) (c : Elem) (rest : List Elem) (out : List YinSubelement × σ)
    (h : yin_parse_content_loop ver handler parrent info lastKw st (c :: rest) = .ok out) :
    ∃ i st2, get_record (Elem.kw c) info = some i ∧
      ¬((info.getD i dummySubelem).flags.unique ∧ (info.getD i dummySubelem).flags.parsed) ∧
      ((parrent = .module ∨ parrent = .submodule) →
        yin_check_relative_order lastKw (Elem.kw c) = .ok ()) ∧
      handler st c = .ok st2 ∧
      yin_parse_content_loop ver handler parrent
        (info.set i (setParsed (info.getD i dummySubelem))) (Elem.kw c) st2 rest = .ok out := by
  simp only [yin_parse_content_loop] at h
  cases hs : yin_parse_content_step ver handler parrent info lastKw st c with
  | error er => rw [hs] at h; cases h
  | ok p =>
    obtain ⟨info2, st2⟩ := p
    rw [hs] at h
    simp only at h
    obtain ⟨i, hj, hu, ho, hh, hinfo2⟩ :=
      step_ok_inv ver handler parrent info lastKw st c info2 st2 hs
    subst hinfo2
    exact ⟨i, st2, hj, hu, ho, hh, h⟩

/-- A child whose table entry is unique and already parsed stops the step
with DuplicateChild, provided the order check does not fire first. -/
theorem step_dup {σ : Type} (ver : σ → Nat) (handler : σ → Elem → Except Err σ)
    (parrent : YangKeyword) (info : List YinSubelement) (lastKw : YangKeyword)
    (st : σ) (c : Elem) (i : Nat)
    (hj : get_record (Elem.kw c) info = some i)
    (ho : (parrent = .module ∨ parrent = .submodule) →
      yin_check_relative_order lastKw (Elem.kw c) = .ok ())
    (hu : (info.getD i dummySubelem).flags.unique = true)
    (hp : (info.getD i dummySubelem).flags.parsed = true) :
    yin_parse_content_step ver handler parrent info lastKw st c =
      .error .duplicateChild := by
  unfold yin_parse_content_step
  rw [hj]
  simp only
  have horder : (if parrent = YangKeyword.module ∨ parrent = YangKeyword.submodule then
      yin_check_relative_order lastKw (Elem.kw c) else .ok ()) = .ok () := by
    by_cases hm : parrent = YangKeyword.module ∨ parrent = YangKeyword.submodule
    · rw [if_pos hm]; exact ho hm
    · rw [if_neg hm]
  rw [horder]
  simp only
  rw [if_pos ⟨hu, hp⟩]

/-- Loop-level version of step_dup. -/
theorem loop_cons_dup {σ : Type} (ver : σ → Nat) (handler : σ → Elem → Except Err σ)
    (parrent : YangKeyword) (info : List YinSubelement) (lastKw : YangKeyword)
    (st : σ) (c : Elem) (rest : List Elem) (i : Nat)
    (hj : get_record (Elem.kw c) info = some i)
    (ho : (parrent = .module ∨ parrent = .submodule) →
      yin_check_relative_order lastKw (Elem.kw c) = .ok ())
    (hu : (info.getD i dummySubelem).flags.unique = true)
    (hp : (info.getD i dummySubelem).flags.parsed = true) :
    yin_parse_content_loop ver handler parrent info lastKw st (c :: rest) =
      .error .duplicateChild := by
  simp only [yin_parse_content_loop]
  rw [step_dup ver handler parrent info lastKw st c i hj ho hu hp]

/-- A child whose table entry carries the Version2 flag stops the step with
VersionTooLow when the active yang-version is below 1.1, provided the
earlier checks pass. -/
theorem step_ver2 {σ : Type} (ver : σ → Nat) (handler : σ → Elem → Except Err σ)
    (parrent : YangKeyword) (info : List YinSubelement) (lastKw : YangKeyword)
    (st : σ) (c : Elem) (i : Nat)
    (hj : get_record (Elem.kw c) info = some i)
    (ho : (parrent = .module ∨ parrent = .submodule) →
      yin_check_relative_order lastKw (Elem.kw c) = .ok ())
    (hu : ¬((info.getD i dummySubelem).flags.unique ∧ (info.getD i dummySubelem).flags.parsed))
    (hf : (info.getD i dummySubelem).flags.first = false)
    (hver2 : (info.getD i dummySubelem).flags.ver2 = true)
    (hlow : ver st < 2) :
    yin_parse_content_step ver handler parrent info lastKw st c =
      .error .versionTooLow := by
  unfold yin_parse_content_step
  rw [hj]
  simp only
  have horder : (if parrent = YangKeyword.module ∨ parrent = YangKeyword.submodule then
      yin_check_relative_order lastKw (Elem.kw c) else .ok ()) = .ok () := by
    by_cases hm : parrent = YangKeyword.module ∨ parrent = YangKeyword.submodule
    · rw [if_pos hm]; exact ho hm
    · rw [if_neg hm]
  rw [horder]
  simp only
  rw [if_neg hu, hf]
  simp only [Bool.false_eq_true, if_false]
  rw [if_pos ⟨hver2, hlow⟩]

/-- Loop-level version of step_ver2. -/
theorem loop_cons_ver2 {σ : Type} (ver : σ → Nat) (handler : σ → Elem → Except Err σ)
    (parrent : YangKeyword) (info : List YinSubelement) (lastKw : YangKeyword)
    (st : σ) (c : Elem) (rest : List Elem) (i : Nat)
    (hj : get_record (Elem.kw c) info = some i)
    (ho : (parrent = .module ∨ parrent = .submodule) →
      yin_check_relative_order lastKw (Elem.kw c) = .ok ())
    (hu : ¬((info.getD i dummySubelem).flags.unique ∧ (info.getD i dummySubelem).flags.parsed))
    (hf : (info.getD i dummySubelem).flags.first = false)
    (hver2 : (info.getD i dummySubelem).flags.ver2 = true)
    (hlow : ver st < 2) :
    yin_parse_content_loop ver handler parrent info lastKw st (c :: rest) =
      .error .versionTooLow := by
  simp only [yin_parse_content_loop]
  rw [step_ver2 ver handler parrent info lastKw st c i hj ho hu hf hver2 hlow]

/-- Under module or submodule, an order-check failure at a found child stops
the dispatcher with that error. -/
theorem loop_cons_order_err {σ : Type} (ver : σ → Nat) (handler : σ → Elem → Except Err σ)
    (parrent : YangKeyword) (info : List YinSubelement) (lastKw : YangKeyword)
    (st : σ) (c : Elem) (rest : List Elem) (i : Nat) (er : Err)
    (hmods : parrent = .module ∨ parrent = .submodule)
    (hj : get_record (Elem.kw c) info = some i)
    (ho : yin_check_relative_order lastKw (Elem.kw c) = .error er) :
    yin_parse_content_loop ver handler parrent info lastKw st (c :: rest) = .error er := by
  simp only [yin_parse_content_loop]
  have hstep : yin_parse_content_step ver handler parrent info lastKw st c = .error er := by
    unfold yin_parse_content_step
    rw [hj]
    simp only
    rw [if_pos hmods, ho]
  rw [hstep]

/-- Entry read after updating the same index. -/
theorem getD_set_self (l : List YinSubelement) (i : Nat) (x : YinSubelement)
    (h : i < l.length) : ((l.set i x).getD i dummySubelem) = x := by
  rw [List.getD_eq_getElem?_getD, List.getElem?_set_self (by omega)]
  rfl

/-- Marking parsed twice is marking parsed once. -/
theorem setParsed_idem (e : YinSubelement) : setParsed (setParsed e) = setParsed e := rfl

/-- Tracking one table entry through a successful dispatcher loop: the
binary search still finds it, it evolved at most by gaining the parsed
flag, it is parsed if a child of its kind was dispatched, and it is
untouched if none was. -/
theorem loop_track {σ : Type} (ver : σ → Nat) (handler : σ → Elem → Except Err σ)
    (parrent : YangKeyword) (k : YangKeyword) :
    ∀ (cs : List Elem) (info : List YinSubelement) (lastKw : YangKeyword) (st : σ)
      (info2 : List YinSubelement) (st2 : σ) (i : Nat),
      yin_parse_content_loop ver handler parrent info lastKw st cs = .ok (info2, st2) →
      get_record k info = some i →
      get_record k info2 = some i ∧
      ((info2.getD i dummySubelem) = (info.getD i dummySubelem) ∨
        (info2.getD i dummySubelem) = setParsed (info.getD i dummySubelem)) ∧
      ((∃ c ∈ cs, Elem.kw c = k) → (info2.getD i dummySubelem).flags.parsed = true) ∧
      ((∀ c ∈ cs, Elem.kw c ≠ k) → (info2.getD i dummySubelem) = (info.getD i dummySubelem)) := by
  intro cs
  induction cs with
  | nil =>
    intro info lastKw st info2 st2 i hloop hget
    cases hloop
    refine ⟨hget, Or.inl rfl, ?_, fun _ => rfl⟩
    rintro ⟨c, hc, _⟩
    cases hc
  | cons c rest ih =>
    intro info lastKw st info2 st2 i hloop hget
    obtain ⟨j, stm, hj, hu, ho, hh, hrest⟩ :=
      loop_cons_ok ver handler parrent info lastKw st c rest (info2, st2) hloop
    obtain ⟨hjlen, hjty⟩ := get_record_some (Elem.kw c) info j hj
    obtain ⟨hilen, hity⟩ := get_record_some k info i hget
    have htypres : (setParsed (info.getD j dummySubelem)).type =
        ((info.getD j dummySubelem)).type := rfl
    have hget' : get_record k (info.set j (setParsed (info.getD j dummySubelem))) = some i := by
      rw [get_record_set k info j _ htypres]
      exact hget
    by_cases hkc : Elem.kw c = k
    · have hij : j = i := by
        rw [hkc] at hj
        rw [hget] at hj
        exact (Option.some.injEq _ _ ▸ hj).symm
      subst hij
      have hset : ((info.set j (setParsed (info.getD j dummySubelem))).getD j dummySubelem) =
          setParsed (info.getD j dummySubelem) := getD_set_self info j _ hjlen
      obtain ⟨hg2, hev2, hex2, hne2⟩ := ih _ (Elem.kw c) stm info2 st2 j hrest hget'
      refine ⟨hg2, ?_, ?_, ?_⟩
      · rcases hev2 with h | h
        · rw [h, hset]
          exact Or.inr rfl
        · rw [h, hset, setParsed_idem]
          exact Or.inr rfl
      · intro _
        rcases hev2 with h | h
        · rw [h, hset]
          rfl
        · rw [h, hset, setParsed_idem]
          rfl
      · intro hall
        exact absurd hkc (hall c (by simp))
    · have hij : j ≠ i := by
        intro hji
        rw [hji] at hjty
        rw [hjty] at hity
        exact hkc hity
      have hset : ((info.set j (setParsed (info.getD j dummySubelem))).getD i dummySubelem) =
          (info.getD i dummySubelem) := getD_set_ne info j i _ (Ne.symm hij)
      obtain ⟨hg2, hev2, hex2, hne2⟩ := ih _ (Elem.kw c) stm info2 st2 i hrest hget'
      refine ⟨hg2, ?_, ?_, ?_⟩
      · rcases hev2 with h | h
        · rw [h, hset]
          exact Or.inl rfl
        · rw [h, hset]
          exact Or.inr rfl
      · rintro ⟨c', hc', hkc'⟩
        rcases List.mem_cons.1 hc' with h | h
        · subst h
          exact absurd hkc' hkc
        · exact hex2 ⟨c', h, hkc'⟩
      · intro hall
        rw [hne2 (fun x hx => hall x (by simp [hx])), hset]

/-- A unique table entry admits at most one child of its kind in a
successful dispatcher loop, and none at all if it is already parsed. -/
theorem loop_unique_count {σ : Type} (ver : σ → Nat) (handler : σ → Elem → Except Err σ)
    (parrent : YangKeyword) (k : YangKeyword) :
    ∀ (cs : List Elem) (info : List YinSubelement) (lastKw : YangKeyword) (st : σ)
      (out : List YinSubelement × σ) (i : Nat),
      yin_parse_content_loop ver handler parrent info lastKw st cs = .ok out →
      get_record k info = some i →
      (info.getD i dummySubelem).flags.unique = true →
      countKw k cs ≤ (if (info.getD i dummySubelem).flags.parsed = true then 0 else 1) := by
  intro cs
  induction cs with
  | nil =>
    intro info lastKw st out i _ _ _
    simp [countKw]
  | cons c rest ih =>
    intro info lastKw st out i hloop hget huniq
    obtain ⟨j, stm, hj, hu, ho, hh, hrest⟩ :=
      loop_cons_ok ver handler parrent info lastKw st c rest out hloop
    obtain ⟨hjlen, hjty⟩ := get_record_some (Elem.kw c) info j hj
    obtain ⟨hilen, hity⟩ := get_record_some k info i hget
    have htypres : (setParsed (info.getD j dummySubelem)).type =
        ((info.getD j dummySubelem)).type := rfl
    have hget' : get_record k (info.set j (setParsed (info.getD j dummySubelem))) = some i := by
      rw [get_record_set k info j _ htypres]
      exact hget
    by_cases hkc : Elem.kw c = k
    · have hij : j = i := by
        rw [hkc] at hj
        rw [hget] at hj
        exact (Option.some.injEq _ _ ▸ hj).symm
      subst hij
      have hpf : (info.getD j dummySubelem).flags.parsed = false := by
        by_cases hp : (info.getD j dummySubelem).flags.parsed = true
        · exact absurd ⟨huniq, hp⟩ hu
        · simpa using hp
      have hset : ((info.set j (setParsed (info.getD j dummySubelem))).getD j dummySubelem) =
          setParsed (info.getD j dummySubelem) := getD_set_self info j _ hjlen
      have hbound := ih _ (Elem.kw c) stm out j hrest hget'
        (by rw [hset]; simpa [setParsed] using huniq)
      rw [hset] at hbound
      have hparsed' : (setParsed (info.getD j dummySubelem)).flags.parsed = true := rfl
      rw [if_pos hparsed'] at hbound
      have hcount : countKw k (c :: rest) = countKw k rest + 1 := by
        simp [countKw, List.countP_cons, hkc]
      rw [hcount, hpf]
      simp only [Bool.false_eq_true, if_false]
      omega
    · have hij : j ≠ i := by
        intro hji
        rw [hji] at hjty
        rw [hjty] at hity
        exact hkc hity
      have hset : ((info.set j (setParsed (info.getD j dummySubelem))).getD i dummySubelem) =
          (info.getD i dummySubelem) := getD_set_ne info j i _ (Ne.symm hij)
      have hbound := ih _ (Elem.kw c) stm out i hrest hget' (by rw [hset]; exact huniq)
      rw [hset] at hbound
      have hcount : countKw k (c :: rest) = countKw k rest := by
        simp [countKw, List.countP_cons, hkc]
      rw [hcount]
      exact hbound

/-- The dispatcher loop preserves the table length. -/
theorem loop_length {σ : Type} (ver : σ → Nat) (handler : σ → Elem → Except Err σ)
    (parrent : YangKeyword) :
    ∀ (cs : List Elem) (info : List YinSubelement) (lastKw : YangKeyword) (st : σ)
      (info2 : List YinSubelement) (st2 : σ),
      yin_parse_content_loop ver handler parrent info lastKw st cs = .ok (info2, st2) →
      info2.length = info.length := by
  intro cs
  induction cs with
  | nil =>
    intro info lastKw st info2 st2 hloop
    cases hloop
    rfl
  | cons c rest ih =>
    intro info lastKw st info2 st2 hloop
    obtain ⟨j, stm, hj, _, _, _, hrest⟩ :=
      loop_cons_ok ver handler parrent info lastKw st c rest (info2, st2) hloop
    have := ih _ (Elem.kw c) stm info2 st2 hrest
    simpa [List.length_set] using this

/-- The dispatcher distributes over list append: run the prefix, then the
suffix from the reached state, with last_kw carried across. -/
theorem loop_append {σ : Type} (ver : σ → Nat) (handler : σ → Elem → Except Err σ)
    (parrent : YangKeyword) :
    ∀ (pre suf : List Elem) (info : List YinSubelement) (lk : YangKeyword) (st : σ),
      yin_parse_content_loop ver handler parrent info lk st (pre ++ suf) =
        (match yin_parse_content_loop ver handler parrent info lk st pre with
         | .error e => .error e
         | .ok (info1, st1) =>
           yin_parse_content_loop ver handler parrent info1 (lastKwOf lk pre) st1 suf) := by
  intro pre
  induction pre with
  | nil =>
    intro suf info lk st
    simp [yin_parse_content_loop, lastKwOf]
  | cons a pre' ih =>
    intro suf info lk st
    have hlast : lastKwOf lk (a :: pre') = lastKwOf (Elem.kw a) pre' := by
      simp [lastKwOf]
    rw [hlast]
    simp only [List.cons_append, yin_parse_content_loop]
    cases hs : yin_parse_content_step ver handler parrent info lk st a with
    | error er => rfl
    | ok p =>
      obtain ⟨info2, st2⟩ := p
      simp only
      exact ih suf info2 (Elem.kw a) st2

/-- A table with a mandatory unparsed entry fails the mandatory-subelement
check. -/
theorem mandatory_err_of_entry (l : List YinSubelement) (i : Nat)
    (hlen : i < l.length)
    (hm : (l.getD i dummySubelem).flags.mandatory = true)
    (hp : (l.getD i dummySubelem).flags.parsed = false) :
    yin_check_subelem_mandatory_constraint l = .error .missingChild := by
  unfold yin_check_subelem_mandatory_constraint
  rw [if_pos]
  rw [List.any_eq_true]
  refine ⟨l.getD i dummySubelem, ?_, ?_⟩
  · rw [List.getD_eq_getElem l dummySubelem hlen]
    exact List.getElem_mem hlen
  · simp only [decide_eq_true_eq]
    refine ⟨hm, ?_⟩
    rw [hp]
    simp

/-- Content parse over child elements, unfolded. -/
theorem content_elems_eq {σ : Type} (ver : σ → Nat) (handler : σ → Elem → Except Err σ)
    (info : List YinSubelement) (parrent : YangKeyword)
    (txt : Option (σ → String → σ)) (st : σ) (cs : List Elem) :
    yin_parse_content ver handler info parrent txt st (.elems cs) =
      (match yin_parse_content_loop ver handler parrent info .none st cs with
       | .error e => .error e
       | .ok (info2, st2) =>
         match yin_check_subelem_mandatory_constraint info2 with
         | .error e => .error e
         | .ok _ => .ok st2) := rfl

/-- A unique, mandatory, initially unparsed entry admits exactly one child
of its kind in any successful content parse. -/
theorem content_unique_mandatory_count {σ : Type} (ver : σ → Nat)
    (handler : σ → Elem → Except Err σ) (parrent : YangKeyword)
    (txt : Option (σ → String → σ)) (k : YangKeyword) (info : List YinSubelement)
    (i : Nat) (hget : get_record k info = some i)
    (hu : (info.getD i dummySubelem).flags.unique = true)
    (hm : (info.getD i dummySubelem).flags.mandatory = true)
    (hp : (info.getD i dummySubelem).flags.parsed = false)
    (st : σ) (cs : List Elem) (st2 : σ)
    (h : yin_parse_content ver handler info parrent txt st (.elems cs) = .ok st2) :
    countKw k cs = 1 := by
  rw [content_elems_eq] at h
  cases hloop : yin_parse_content_loop ver handler parrent info .none st cs with
  | error e => rw [hloop] at h; cases h
  | ok out =>
    obtain ⟨info2, st2'⟩ := out
    rw [hloop] at h
    simp only at h
    have hub := loop_unique_count ver handler parrent k cs info .none st (info2, st2') i
      hloop hget hu
    rw [hp] at hub
    simp only [Bool.false_eq_true, if_false] at hub
    by_cases hz : countKw k cs = 0
    · exfalso
      have hall : ∀ c ∈ cs, Elem.kw c ≠ k := by
        intro c hc hkc
        have : 0 < countKw k cs := by
          apply List.countP_pos.2
          exact ⟨c, hc, by simp [hkc]⟩
        omega
      obtain ⟨_, _, _, hne⟩ := loop_track ver handler parrent k cs info .none st info2 st2' i
        hloop hget
      have heq := hne hall
      have hlen2 := loop_length ver handler parrent cs info .none st info2 st2' hloop
      have hilen := (get_record_some k info i hget).1
      have hmand := mandatory_err_of_entry info2 i (by omega)
        (by rw [heq]; exact hm) (by rw [heq]; exact hp)
      rw [hmand] at h
      cases h
    · omega

/-- The keyword carried as last_kw after a child list is the initial one or
the keyword of some member. -/
theorem lastKwOf_cases (lk : YangKeyword) (cs : List Elem) :
    lastKwOf lk cs = lk ∨ ∃ x ∈ cs, lastKwOf lk cs = Elem.kw x := by
  induction cs generalizing lk with
  | nil => exact Or.inl rfl
  | cons a t ih =>
    have h : lastKwOf lk (a :: t) = lastKwOf (Elem.kw a) t := by simp [lastKwOf]
    rcases ih (Elem.kw a) with h2 | ⟨x, hx, h2⟩
    · exact Or.inr ⟨a, by simp, by rw [h, h2]⟩
    · exact Or.inr ⟨x, by simp [hx], by rw [h, h2]⟩

/-- C2 (amended): a successful parse of the module element's children has
yang-version, namespace and prefix each exactly once; a second occurrence of
any of them while only header-phase children have been parsed fails with
DuplicateChild; absence of any of them fails with MissingChild at the end of
the module element. -/
theorem C2_module_header_statements :
    (∀ (σ : Type) (ver : σ → Nat) (handler : σ → Elem → Except Err σ) (st : σ)
        (cs : List Elem) (st2 : σ),
      yin_parse_content ver handler module_subelems .module Option.none st (.elems cs) =
        .ok st2 →
      countKw .yang_version cs = 1 ∧ countKw .namespace_kw cs = 1 ∧ countKw .pfx cs = 1) ∧
    (∀ (σ : Type) (ver : σ → Nat) (handler : σ → Elem → Except Err σ) (st : σ)
        (pre : List Elem) (c : Elem) (rest : List Elem)
        (info1 : List YinSubelement) (st1 : σ),
      (Elem.kw c = .yang_version ∨ Elem.kw c = .namespace_kw ∨ Elem.kw c = .pfx) →
      (∀ x ∈ pre, kw2kw_group (Elem.kw x) = .ok .moduleHeader) →
      1 ≤ countKw (Elem.kw c) pre →
      yin_parse_content_loop ver handler .module module_subelems .none st pre =
        .ok (info1, st1) →
      yin_parse_content ver handler module_subelems .module Option.none st
        (.elems (pre ++ c :: rest)) = .error .duplicateChild) ∧
    (∀ (σ : Type) (ver : σ → Nat) (handler : σ → Elem → Except Err σ) (st : σ)
        (cs : List Elem) (info2 : List YinSubelement) (st2 : σ) (k : YangKeyword),
      (k = .yang_version ∨ k = .namespace_kw ∨ k = .pfx) →
      countKw k cs = 0 →
      yin_parse_content_loop ver handler .module module_subelems .none st cs =
        .ok (info2, st2) →
      yin_parse_content ver handler module_subelems .module Option.none st (.elems cs) =
        .error .missingChild) := by
  have hidx : ∀ k : YangKeyword,
      (k = .yang_version ∨ k = .namespace_kw ∨ k = .pfx) →
      ∃ i, get_record k module_subelems = some i ∧
        (module_subelems.getD i dummySubelem).flags.unique = true ∧
        (module_subelems.getD i dummySubelem).flags.mandatory = true ∧
        (module_subelems.getD i dummySubelem).flags.parsed = false ∧
        kw2kw_group k = .ok .moduleHeader := by
    rintro k (rfl | rfl | rfl)
    · exact ⟨26, rfl, rfl, rfl, rfl, rfl⟩
    · exact ⟨17, rfl, rfl, rfl, rfl, rfl⟩
    · exact ⟨20, rfl, rfl, rfl, rfl, rfl⟩
  refine ⟨?_, ?_, ?_⟩
  · intro σ ver handler st cs st2 h
    obtain ⟨i1, hg1, hu1, hm1, hp1, _⟩ := hidx .yang_version (Or.inl rfl)
    obtain ⟨i2, hg2, hu2, hm2, hp2, _⟩ := hidx .namespace_kw (Or.inr (Or.inl rfl))
    obtain ⟨i3, hg3, hu3, hm3, hp3, _⟩ := hidx .pfx (Or.inr (Or.inr rfl))
    exact ⟨content_unique_mandatory_count ver handler .module Option.none .yang_version
        module_subelems i1 hg1 hu1 hm1 hp1 st cs st2 h,
      content_unique_mandatory_count ver handler .module Option.none .namespace_kw
        module_subelems i2 hg2 hu2 hm2 hp2 st cs st2 h,
      content_unique_mandatory_count ver handler .module Option.none .pfx
        module_subelems i3 hg3 hu3 hm3 hp3 st cs st2 h⟩
  · intro σ ver handler st pre c rest info1 st1 hkc hpre hcount hloop
    obtain ⟨i, hget, huniq, _, _, hgrp⟩ := hidx (Elem.kw c) hkc
    obtain ⟨hget1, hev, hex, _⟩ := loop_track ver handler .module (Elem.kw c) pre
      module_subelems .none st info1 st1 i hloop hget
    have hparsed1 : (info1.getD i dummySubelem).flags.parsed = true := by
      apply hex
      obtain ⟨x, hx, hpx⟩ := List.countP_pos.1 (by omega : 0 < countKw (Elem.kw c) pre)
      exact ⟨x, hx, by simpa using hpx⟩
    have huniq1 : (info1.getD i dummySubelem).flags.unique = true := by
      rcases hev with h | h
      · rw [h]; exact huniq
      · rw [h]; exact huniq
    have horder : yin_check_relative_order (lastKwOf .none pre) (Elem.kw c) = .ok () := by
      have hgl : kw2kw_group (lastKwOf .none pre) = .ok .moduleHeader := by
        rcases lastKwOf_cases .none pre with h | ⟨x, hx, h⟩
        · rw [h]; rfl
        · rw [h]; exact hpre x hx
      unfold yin_check_relative_order
      rw [hgl, hgrp]
      simp [grpIdx]
    rw [content_elems_eq, loop_append, hloop]
    simp only
    rw [loop_cons_dup ver handler .module info1 (lastKwOf .none pre) st1 c rest i hget1
      (fun _ => horder) huniq1 hparsed1]
  · intro σ ver handler st cs info2 st2 k hk hcount hloop
    obtain ⟨i, hget, _, hmand, hpars, _⟩ := hidx k hk
    have hall : ∀ x ∈ cs, Elem.kw x ≠ k := by
      intro x hx hkx
      have : 0 < countKw k cs := List.countP_pos.2 ⟨x, hx, by simp [hkx]⟩
      omega
    obtain ⟨_, _, _, hne⟩ := loop_track ver handler .module k cs module_subelems .none st
      info2 st2 i hloop hget
    have heq := hne hall
    have hlen2 := loop_length ver handler .module cs module_subelems .none st info2 st2 hloop
    have hilen := (get_record_some k module_subelems i hget).1
    rw [content_elems_eq, hloop]
    simp only
    rw [mandatory_err_of_entry info2 i (by omega) (by rw [heq]; exact hmand)
      (by rw [heq]; exact hpars)]

/-- Counterexample to C2 as stated: a second yang-version after a body-phase
child (a container) fails with OrderingViolation, not DuplicateChild — the
relative-order check runs before the uniqueness check. -/
theorem C2_counterexample :
    yin_parse_content (fun _ => 2) okHandler module_subelems .module Option.none ()
        (.elems [bareElem .yang_version, bareElem .container, bareElem .yang_version]) =
      .error .orderingViolation := by
  rfl

/-- Witness for C2 at concrete inputs: a module body with the three header
statements once parses and the theorem counts them; an immediate duplicate
yang-version is DuplicateChild; an empty body is MissingChild. -/
theorem C2_module_header_statements_witness :
    (countKw .yang_version [bareElem .yang_version, bareElem .namespace_kw, bareElem .pfx] = 1 ∧
      countKw .namespace_kw [bareElem .yang_version, bareElem .namespace_kw, bareElem .pfx] = 1 ∧
      countKw .pfx [bareElem .yang_version, bareElem .namespace_kw, bareElem .pfx] = 1) ∧
    yin_parse_content (fun _ => 2) okHandler module_subelems .module Option.none ()
        (.elems [bareElem .yang_version, bareElem .yang_version]) = .error .duplicateChild ∧
    yin_parse_content (fun _ => 2) okHandler module_subelems .module Option.none ()
        (.elems []) = .error .missingChild := by
  refine ⟨?_, ?_, ?_⟩
  · exact C2_module_header_statements.1 Unit (fun _ => 2) okHandler ()
      [bareElem .yang_version, bareElem .namespace_kw, bareElem .pfx] () (by rfl)
  · exact C2_module_header_statements.2.1 Unit (fun _ => 2) okHandler ()
      [bareElem .yang_version] (bareElem .yang_version) []
      (module_subelems.set 26 (setParsed (module_subelems.getD 26 dummySubelem))) ()
      (Or.inl rfl) (by intro x hx; fin_cases hx; rfl) (by decide) (by rfl)
  · exact C2_module_header_statements.2.2 Unit (fun _ => 2) okHandler () []
      module_subelems () .yang_version (Or.inl rfl) (by decide) (by rfl)

/-- Every error of a dispatcher step is one of the step's own checks, an
order-check error (possible only under module/submodule), or a handler
error. -/
theorem step_err_inv {σ : Type} (ver : σ → Nat) (handler : σ → Elem → Except Err σ)
    (parrent : YangKeyword) (info : List YinSubelement) (lastKw : YangKeyword)
    (st : σ) (c : Elem) (e : Err)
    (h : yin_parse_content_step ver handler parrent info lastKw st c = .error e) :
    e = .invalidDevSub ∨ e = .unexpectedChild ∨ e = .duplicateChild ∨
    e = .firstViolation ∨ e = .versionTooLow ∨
    (parrent = .module ∨ parrent = .submodule) ∨
    handler st c = .error e := by
  unfold yin_parse_content_step at h
  cases hj : get_record (Elem.kw c) info with
  | none =>
    rw [hj] at h
    simp only at h
    by_cases hd : parrent = YangKeyword.deviate ∧ isdevsub (Elem.kw c)
    · rw [if_pos hd] at h
      injection h with h2
      exact Or.inl h2.symm
    · rw [if_neg hd] at h
      injection h with h2
      exact Or.inr (Or.inl h2.symm)
  | some i =>
    rw [hj] at h
    simp only at h
    by_cases hm : parrent = YangKeyword.module ∨ parrent = YangKeyword.submodule
    · exact Or.inr (Or.inr (Or.inr (Or.inr (Or.inr (Or.inl hm)))))
    · rw [if_neg hm] at h
      simp only at h
      by_cases hu : (info.getD i dummySubelem).flags.unique ∧
          (info.getD i dummySubelem).flags.parsed
      · rw [if_pos hu] at h
        injection h with h2
        exact Or.inr (Or.inr (Or.inl h2.symm))
      · rw [if_neg hu] at h
        cases hf : (if (info.getD i dummySubelem).flags.first then
            yin_check_subelem_first_constraint info else .ok ()) with
        | error er =>
          rw [hf] at h
          simp only at h
          injection h with h2
          subst h2
          have her : er = Err.firstViolation := by
            by_cases hb : (info.getD i dummySubelem).flags.first
            · rw [if_pos hb] at hf
              unfold yin_check_subelem_first_constraint at hf
              split at hf
              · injection hf with h3
                exact h3.symm
              · cases hf
            · rw [if_neg hb] at hf
              cases hf
          exact Or.inr (Or.inr (Or.inr (Or.inl her)))
        | ok u =>
          rw [hf] at h
          simp only at h
          by_cases hv : (info.getD i dummySubelem).flags.ver2 ∧ ver st < 2
          · rw [if_pos hv] at h
            injection h with h2
            exact Or.inr (Or.inr (Or.inr (Or.inr (Or.inl h2.symm))))
          · rw [if_neg hv] at h
            cases hh : handler st c with
            | error er =>
              rw [hh] at h
              simp only at h
              injection h with h2
              subst h2
              exact Or.inr (Or.inr (Or.inr (Or.inr (Or.inr (Or.inr rfl)))))
            | ok st2 =>
              rw [hh] at h
              cases h

/-- Every error of the child loop is one of the step's own checks, an
order-check error (possible only under module/submodule), or an error of the
handler on some member of the child list. -/
theorem loop_err_inv {σ : Type} (ver : σ → Nat) (handler : σ → Elem → Except Err σ)
    (parrent : YangKeyword) (info : List YinSubelement) (lastKw : YangKeyword)
    (st : σ) (cs : List Elem) (e : Err)
    (h : yin_parse_content_loop ver handler parrent info lastKw st cs = .error e) :
    e = .invalidDevSub ∨ e = .unexpectedChild ∨ e = .duplicateChild ∨
    e = .firstViolation ∨ e = .versionTooLow ∨
    (parrent = .module ∨ parrent = .submodule) ∨
    ∃ st2 c, c ∈ cs ∧ handler st2 c = .error e := by
  induction cs generalizing info lastKw st with
  | nil => cases h
  | cons c rest ih =>
    simp only [yin_parse_content_loop] at h
    cases hs : yin_parse_content_step ver handler parrent info lastKw st c with
    | error er =>
      rw [hs] at h
      simp only at h
      injection h with h2
      subst h2
      rcases step_err_inv ver handler parrent info lastKw st c er hs with
        h1 | h1 | h1 | h1 | h1 | h1 | h1
      · exact Or.inl h1
      · exact Or.inr (Or.inl h1)
      · exact Or.inr (Or.inr (Or.inl h1))
      · exact Or.inr (Or.inr (Or.inr (Or.inl h1)))
      · exact Or.inr (Or.inr (Or.inr (Or.inr (Or.inl h1))))
      · exact Or.inr (Or.inr (Or.inr (Or.inr (Or.inr (Or.inl h1)))))
      · exact Or.inr (Or.inr (Or.inr (Or.inr (Or.inr (Or.inr ⟨st, c, by simp, h1⟩)))))
    | ok p =>
      obtain ⟨info2, st2⟩ := p
      rw [hs] at h
      simp only at h
      rcases ih info2 (Elem.kw c) st2 h with h1 | h1 | h1 | h1 | h1 | h1 | ⟨s3, c3, hc3, h1⟩
      · exact Or.inl h1
      · exact Or.inr (Or.inl h1)
      · exact Or.inr (Or.inr (Or.inl h1))
      · exact Or.inr (Or.inr (Or.inr (Or.inl h1)))
      · exact Or.inr (Or.inr (Or.inr (Or.inr (Or.inl h1))))
      · exact Or.inr (Or.inr (Or.inr (Or.inr (Or.inr (Or.inl h1)))))
      · exact Or.inr (Or.inr (Or.inr (Or.inr (Or.inr (Or.inr
          ⟨s3, c3, by simp [hc3], h1⟩)))))

/-- C6: under a module or submodule parent, the loop passes a consecutive
pair of children only if the later child's phase group is at least the
earlier one's; an import after a revision fails with OrderingViolation; and
the order check never fires under any other parent. -/
theorem C6_relative_order :
    (∀ (σ : Type) (ver : σ → Nat) (handler : σ → Elem → Except Err σ)
        (parrent : YangKeyword) (info : List YinSubelement) (lastKw : YangKeyword)
        (st : σ) (c1 c2 : Elem) (rest : List Elem) (out : List YinSubelement × σ),
      (parrent = .module ∨ parrent = .submodule) →
      yin_parse_content_loop ver handler parrent info lastKw st (c1 :: c2 :: rest) =
        .ok out →
      ∃ g1 g2, kw2kw_group (Elem.kw c1) = .ok g1 ∧ kw2kw_group (Elem.kw c2) = .ok g2 ∧
        grpIdx g1 ≤ grpIdx g2) ∧
    yin_parse_content (fun _ => 2) okHandler module_subelems .module Option.none ()
        (.elems [bareElem .revision, bareElem .import_kw]) = .error .orderingViolation ∧
    (∀ (σ : Type) (ver : σ → Nat) (handler : σ → Elem → Except Err σ)
        (parrent : YangKeyword) (info : List YinSubelement) (lastKw : YangKeyword)
        (st : σ) (cs : List Elem),
      ¬(parrent = .module ∨ parrent = .submodule) →
      (∀ (s : σ) (c : Elem), handler s c ≠ .error .orderingViolation) →
      yin_parse_content_loop ver handler parrent info lastKw st cs ≠
        .error .orderingViolation) := by
  refine ⟨?_, by rfl, ?_⟩
  · intro σ ver handler parrent info lastKw st c1 c2 rest out hmods h
    obtain ⟨i1, st2, _, _, _, _, h2⟩ :=
      loop_cons_ok ver handler parrent info lastKw st c1 (c2 :: rest) out h
    obtain ⟨i2, st3, _, _, ho, _, _⟩ :=
      loop_cons_ok ver handler parrent _ (Elem.kw c1) st2 c2 rest out h2
    have ho2 := ho hmods
    unfold yin_check_relative_order at ho2
    cases hg1 : kw2kw_group (Elem.kw c1) with
    | error er => rw [hg1] at ho2; cases ho2
    | ok g1 =>
      rw [hg1] at ho2
      simp only at ho2
      cases hg2 : kw2kw_group (Elem.kw c2) with
      | error er => rw [hg2] at ho2; cases ho2
      | ok g2 =>
        rw [hg2] at ho2
        simp only at ho2
        by_cases hlt : grpIdx g2 < grpIdx g1
        · rw [if_pos hlt] at ho2; cases ho2
        · exact ⟨g1, g2, rfl, rfl, by omega⟩
  · intro σ ver handler parrent info lastKw st cs hn hh h
    rcases loop_err_inv ver handler parrent info lastKw st cs .orderingViolation h with
      h1 | h1 | h1 | h1 | h1 | h1 | ⟨s2, c2, _, h1⟩
    · cases h1
    · cases h1
    · cases h1
    · cases h1
    · cases h1
    · exact hn h1
    · exact hh s2 c2 h1

/-- Witness for C6 at concrete inputs: namespace then revision passes the
order check and their phase groups are monotone; a description child of a
container cannot produce OrderingViolation. -/
theorem C6_relative_order_witness :
    (∃ g1 g2, kw2kw_group (Elem.kw (bareElem .namespace_kw)) = .ok g1 ∧
      kw2kw_group (Elem.kw (bareElem .revision)) = .ok g2 ∧ grpIdx g1 ≤ grpIdx g2) ∧
    yin_parse_content_loop (fun _ => (2 : Nat)) okHandler .container container_subelems
        .none () [bareElem .description] ≠ .error .orderingViolation := by
  constructor
  · obtain ⟨out, hout⟩ : ∃ out,
        yin_parse_content_loop (fun _ => (2 : Nat)) okHandler .module module_subelems
          .none () [bareElem .namespace_kw, bareElem .revision] = .ok out := ⟨_, rfl⟩
    exact C6_relative_order.1 Unit (fun _ => 2) okHandler .module module_subelems .none ()
      (bareElem .namespace_kw) (bareElem .revision) [] out (Or.inl rfl) hout
  · exact C6_relative_order.2.2 Unit (fun _ => 2) okHandler .container container_subelems
      .none () [bareElem .description] (by decide)
      (fun s c h => by cases h)

/-- C7: a child whose table entry carries the Version2 flag is rejected with
VersionTooLow whenever the active yang-version is below 1.1 (2 in the
internal encoding); concretely a notification child of a container fails
under version 1.0 and is accepted under version 1.1. -/
theorem C7_version2_children :
    (∀ (σ : Type) (ver : σ → Nat) (handler : σ → Elem → Except Err σ)
        (parrent : YangKeyword) (info : List YinSubelement) (lastKw : YangKeyword)
        (st : σ) (c : Elem) (rest : List Elem) (i : Nat),
      get_record (Elem.kw c) info = some i →
      ((parrent = .module ∨ parrent = .submodule) →
        yin_check_relative_order lastKw (Elem.kw c) = .ok ()) →
      ¬((info.getD i dummySubelem).flags.unique ∧ (info.getD i dummySubelem).flags.parsed) →
      (info.getD i dummySubelem).flags.first = false →
      (info.getD i dummySubelem).flags.ver2 = true →
      ver st < 2 →
      yin_parse_content_loop ver handler parrent info lastKw st (c :: rest) =
        .error .versionTooLow) ∧
    yin_parse_content (fun _ => 1) okHandler container_subelems .container Option.none ()
        (.elems [bareElem .notification]) = .error .versionTooLow ∧
    yin_parse_content (fun _ => 2) okHandler container_subelems .container Option.none ()
        (.elems [bareElem .notification]) = .ok () := by
  exact ⟨fun σ ver handler parrent info lastKw st c rest i hj ho hu hf hv hlow =>
    loop_cons_ver2 ver handler parrent info lastKw st c rest i hj ho hu hf hv hlow,
    by rfl, by rfl⟩

/-- Witness for C7 at a concrete input: the generic part applied to the
notification entry of the container table under version 1. -/
theorem C7_version2_children_witness :
    yin_parse_content_loop (fun _ => (1 : Nat)) okHandler .container container_subelems
        .none () [bareElem .notification] = .error .versionTooLow := by
  exact C7_version2_children.1 Unit (fun _ => 1) okHandler .container container_subelems
    .none () (bareElem .notification) [] 13 (by rfl)
    (fun hm => by cases hm <;> simp_all) (by decide) (by rfl) (by rfl) (by decide)

/-- A successful modifier parse saw the 0x06 sentinel, bound exactly
invert-match, and returned the argument with its first byte set to 0x15. -/
theorem yin_parse_modifier_ok_inv (oracle : Oracle) (attrs : List AttrRecord)
    (content : ElemContent) (pat a : List Char)
    (h : yin_parse_modifier oracle attrs content pat = .ok a) :
    pat.headD ' ' = sentinelMatch ∧
    yin_parse_attribute attrs .value .Y_STR_ARG = .ok (some "invert-match") ∧
    a = sentinelInvert :: pat.tail := by
  unfold yin_parse_modifier at h
  by_cases h0 : pat.headD ' ' ≠ sentinelMatch
  · rw [if_pos h0] at h
    cases h
  · rw [if_neg h0] at h
    have h0' : pat.headD ' ' = sentinelMatch := not_ne_iff.mp h0
    cases hb : yin_parse_attribute attrs .value .Y_STR_ARG with
    | error e => rw [hb] at h; cases h
    | ok o =>
      cases o with
      | none => rw [hb] at h; cases h
      | some tv =>
        rw [hb] at h
        simp only at h
        by_cases htv : tv ≠ "invert-match"
        · rw [if_pos htv] at h
          cases h
        · rw [if_neg htv] at h
          have htv' : tv = "invert-match" := not_ne_iff.mp htv
          subst htv'
          cases hc : yin_parse_content (fun _ => 2) (oracleUnit oracle)
              custom_only_subelems .modifier Option.none () content with
          | error e => rw [hc] at h; cases h
          | ok u =>
            rw [hc] at h
            simp only at h
            injection h with h2
            exact ⟨h0', rfl, h2.symm⟩

/-- A modifier whose bound value is not invert-match fails with the invalid
value error, provided the sentinel assertion holds at entry. -/
theorem yin_parse_modifier_badval (oracle : Oracle) (attrs : List AttrRecord)
    (content : ElemContent) (pat : List Char) (w : String)
    (hpat : pat.headD ' ' = sentinelMatch)
    (hb : yin_parse_attribute attrs .value .Y_STR_ARG = .ok (some w))
    (hw : w ≠ "invert-match") :
    yin_parse_modifier oracle attrs content pat = .error (.invalidValue (kwErr .modifier)) := by
  unfold yin_parse_modifier
  rw [if_neg (not_ne_iff.mpr hpat), hb]
  simp only
  rw [if_pos hw]

/-- The oracle lift never reports the assert-model error when the oracle
does not. -/
theorem oracleUnit_no_assert {σ : Type} (oracle : Oracle) (st : σ) (c : Elem)
    (horacle : ∀ x, oracle x ≠ .error .internalAssert) :
    oracleUnit oracle st c ≠ .error .internalAssert := by
  unfold oracleUnit
  cases ho : oracle c with
  | error e =>
    intro h
    injection h with h2
    subst h2
    exact horacle c ho
  | ok v => intro h; cases h

/-- The mandatory constraint check fails only with MissingChild. -/
theorem mandatory_err_form (l : List YinSubelement) (e : Err)
    (h : yin_check_subelem_mandatory_constraint l = .error e) : e = .missingChild := by
  unfold yin_check_subelem_mandatory_constraint at h
  split at h
  · injection h with h2
    exact h2.symm
  · cases h

/-- Content parsing over the extension-only table with a lifted oracle never
reports the assert-model error (outside module/submodule, with an
assert-free oracle). -/
theorem content_unit_no_assert (oracle : Oracle) (parrent : YangKeyword)
    (content : ElemContent)
    (hn : ¬(parrent = .module ∨ parrent = .submodule))
    (horacle : ∀ x, oracle x ≠ .error .internalAssert) :
    yin_parse_content (fun _ => 2) (oracleUnit oracle) custom_only_subelems parrent
      Option.none () content ≠ .error .internalAssert := by
  intro h
  cases content with
  | elems cs =>
    simp only [yin_parse_content] at h
    cases hl : yin_parse_content_loop (fun _ => 2) (oracleUnit oracle) parrent
        custom_only_subelems .none () cs with
    | error e =>
      rw [hl] at h
      simp only at h
      injection h with h2
      subst h2
      rcases loop_err_inv (fun _ => 2) (oracleUnit oracle) parrent custom_only_subelems
          .none () cs .internalAssert hl with
        h1 | h1 | h1 | h1 | h1 | h1 | ⟨s2, c2, _, h1⟩
      · cases h1
      · cases h1
      · cases h1
      · cases h1
      · cases h1
      · exact hn h1
      · exact oracleUnit_no_assert oracle s2 c2 horacle h1
    | ok p =>
      obtain ⟨info2, st2⟩ := p
      rw [hl] at h
      simp only at h
      cases hm : yin_check_subelem_mandatory_constraint info2 with
      | error e =>
        rw [hm] at h
        simp only at h
        injection h with h2
        subst h2
        cases mandatory_err_form info2 .internalAssert hm
      | ok u => rw [hm] at h; cases h
  | text s =>
    simp only [yin_parse_content] at h
    cases hv : yin_validate_value .Y_STR_ARG s with
    | error e =>
      rw [hv] at h
      simp only at h
      injection h with h2
      subst h2
      unfold yin_validate_value at hv
      split at hv
      · cases hv
      · injection hv with h3
        cases h3
    | ok u =>
      rw [hv] at h
      simp only at h
      cases hm : yin_check_subelem_mandatory_constraint custom_only_subelems with
      | error e =>
        rw [hm] at h
        simp only at h
        injection h with h2
        subst h2
        cases mandatory_err_form custom_only_subelems .internalAssert hm
      | ok u2 => rw [hm] at h; cases h
  | empty =>
    simp only [yin_parse_content] at h
    cases hm : yin_check_subelem_mandatory_constraint custom_only_subelems with
    | error e =>
      rw [hm] at h
      simp only at h
      injection h with h2
      subst h2
      cases mandatory_err_form custom_only_subelems .internalAssert hm
    | ok u => rw [hm] at h; cases h

/-- The modifier handler never reports the assert-model error when it is
entered with the 0x06 sentinel in place and the oracle is assert-free. -/
theorem yin_parse_modifier_no_assert (oracle : Oracle) (attrs : List AttrRecord)
    (content : ElemContent) (pat : List Char)
    (hpat : pat.headD ' ' = sentinelMatch)
    (horacle : ∀ x, oracle x ≠ .error .internalAssert) :
    yin_parse_modifier oracle attrs content pat ≠ .error .internalAssert := by
  unfold yin_parse_modifier
  rw [if_neg (not_ne_iff.mpr hpat)]
  cases hb : yin_parse_attribute attrs .value .Y_STR_ARG with
  | error e =>
    intro h
    injection h with h2
    subst h2
    exact yin_parse_attribute_ne_assert attrs .value .Y_STR_ARG hb
  | ok o =>
    cases o with
    | none => intro h; cases h
    | some tv =>
      simp only
      by_cases htv : tv ≠ "invert-match"
      · rw [if_pos htv]
        intro h
        cases h
      · rw [if_neg htv]
        cases hc : yin_parse_content (fun _ => 2) (oracleUnit oracle)
            custom_only_subelems .modifier Option.none () content with
        | error e =>
          intro h
          injection h with h2
          subst h2
          exact content_unit_no_assert oracle .modifier content
            (by rintro (h3 | h3) <;> cases h3) horacle hc
        | ok u => intro h; cases h

/-- Inversion of a successful pattern child handler: a modifier child bound
exactly invert-match and flipped the sentinel; every other child left the
stored argument unchanged. -/
theorem patternChildHandler_ok_inv (oracle : Oracle) (st : LyspRestr) (c : Elem)
    (st2 : LyspRestr) (h : patternChildHandler oracle st c = .ok st2) :
    (Elem.kw c = .modifier →
      yin_parse_attribute (Elem.attrs c) .value .Y_STR_ARG = .ok (some "invert-match") ∧
      st.arg.headD ' ' = sentinelMatch ∧ st2.arg = sentinelInvert :: st.arg.tail) ∧
    (Elem.kw c ≠ .modifier → st2.arg = st.arg) := by
  unfold patternChildHandler at h
  split at h
  case h_1 hkw =>
    refine ⟨fun hm => (by rw [hkw] at hm; cases hm), fun _ => ?_⟩
    cases ho : oracle c with
    | error e => rw [ho] at h; cases h
    | ok v => rw [ho] at h; injection h with h2; rw [← h2]
  case h_2 hkw =>
    refine ⟨fun hm => (by rw [hkw] at hm; cases hm), fun _ => ?_⟩
    cases ho : oracle c with
    | error e => rw [ho] at h; cases h
    | ok v => rw [ho] at h; injection h with h2; rw [← h2]
  case h_3 hkw =>
    refine ⟨fun hm => (by rw [hkw] at hm; cases hm), fun _ => ?_⟩
    cases ho : oracle c with
    | error e => rw [ho] at h; cases h
    | ok v => rw [ho] at h; injection h with h2; rw [← h2]
  case h_4 hkw =>
    refine ⟨fun hm => (by rw [hkw] at hm; cases hm), fun _ => ?_⟩
    cases ho : oracle c with
    | error e => rw [ho] at h; cases h
    | ok v => rw [ho] at h; injection h with h2; rw [← h2]
  case h_5 hkw =>
    refine ⟨fun _ => ?_, fun hm => absurd hkw hm⟩
    cases hmod : yin_parse_modifier oracle (Elem.attrs c) (Elem.content c) st.arg with
    | error e => rw [hmod] at h; cases h
    | ok a =>
      rw [hmod] at h
      injection h with h2
      obtain ⟨h0, hbind, ha⟩ :=
        yin_parse_modifier_ok_inv oracle (Elem.attrs c) (Elem.content c) st.arg a hmod
      exact ⟨hbind, h0, by rw [← h2, ha]⟩
  case h_6 hkw =>
    refine ⟨fun hm => (by rw [hkw] at hm; cases hm), fun _ => ?_⟩
    cases ho : oracle c with
    | error e => rw [ho] at h; cases h
    | ok v => rw [ho] at h; injection h with h2; rw [← h2]
  case h_7 =>
    cases h

/-- The pattern child handler never reports the assert-model error when a
modifier child can only be dispatched with the 0x06 sentinel in place. -/
theorem patternChildHandler_no_assert (oracle : Oracle) (st : LyspRestr) (c : Elem)
    (horacle : ∀ x, oracle x ≠ .error .internalAssert)
    (hpat : Elem.kw c = .modifier → st.arg.headD ' ' = sentinelMatch) :
    patternChildHandler oracle st c ≠ .error .internalAssert := by
  unfold patternChildHandler
  split
  case h_1 hkw =>
    cases ho : oracle c with
    | error e =>
      intro h
      injection h with h2
      subst h2
      exact horacle c ho
    | ok v => intro h; cases h
  case h_2 hkw =>
    cases ho : oracle c with
    | error e =>
      intro h
      injection h with h2
      subst h2
      exact horacle c ho
    | ok v => intro h; cases h
  case h_3 hkw =>
    cases ho : oracle c with
    | error e =>
      intro h
      injection h with h2
      subst h2
      exact horacle c ho
    | ok v => intro h; cases h
  case h_4 hkw =>
    cases ho : oracle c with
    | error e =>
      intro h
      injection h with h2
      subst h2
      exact horacle c ho
    | ok v => intro h; cases h
  case h_5 hkw =>
    cases hmod : yin_parse_modifier oracle (Elem.attrs c) (Elem.content c) st.arg with
    | error e =>
      intro h
      injection h with h2
      subst h2
      exact yin_parse_modifier_no_assert oracle (Elem.attrs c) (Elem.content c) st.arg
        (hpat hkw) horacle hmod
    | ok a => intro h; cases h
  case h_6 hkw =>
    cases ho : oracle c with
    | error e =>
      intro h
      injection h with h2
      subst h2
      exact horacle c ho
    | ok v => intro h; cases h
  case h_7 =>
    intro h
    cases h

/-- A handler failure surfaces as the step's own failure once the preceding
checks pass. -/
theorem step_handler_err {σ : Type} (ver : σ → Nat) (handler : σ → Elem → Except Err σ)
    (parrent : YangKeyword) (info : List YinSubelement) (lastKw : YangKeyword)
    (st : σ) (c : Elem) (i : Nat) (er : Err)
    (hj : get_record (Elem.kw c) info = some i)
    (ho : (parrent = .module ∨ parrent = .submodule) →
      yin_check_relative_order lastKw (Elem.kw c) = .ok ())
    (hu : ¬((info.getD i dummySubelem).flags.unique ∧ (info.getD i dummySubelem).flags.parsed))
    (hf : (info.getD i dummySubelem).flags.first = false)
    (hv : ¬((info.getD i dummySubelem).flags.ver2 ∧ ver st < 2))
    (hh : handler st c = .error er) :
    yin_parse_content_step ver handler parrent info lastKw st c = .error er := by
  unfold yin_parse_content_step
  rw [hj]
  simp only
  have horder : (if parrent = YangKeyword.module ∨ parrent = YangKeyword.submodule then
      yin_check_relative_order lastKw (Elem.kw c) else .ok ()) = .ok () := by
    by_cases hm : parrent = YangKeyword.module ∨ parrent = YangKeyword.submodule
    · rw [if_pos hm]; exact ho hm
    · rw [if_neg hm]
  rw [horder]
  simp only
  rw [if_neg hu, hf]
  simp only [Bool.false_eq_true, if_false]
  rw [if_neg hv]
  rw [hh]

/-- The first-occurrence constraint check fails only with FirstViolation. -/
theorem first_err_form (l : List YinSubelement) (e : Err)
    (h : yin_check_subelem_first_constraint l = .error e) : e = .firstViolation := by
  unfold yin_check_subelem_first_constraint at h
  split at h
  · injection h with h2
    exact h2.symm
  · cases h

/-- Strengthened error inversion of a step: a handler error implies the
child's entry was found and passed the uniqueness check. -/
theorem step_err_handler_inv {σ : Type} (ver : σ → Nat) (handler : σ → Elem → Except Err σ)
    (parrent : YangKeyword) (info : List YinSubelement) (lastKw : YangKeyword)
    (st : σ) (c : Elem) (e : Err)
    (h : yin_parse_content_step ver handler parrent info lastKw st c = .error e) :
    e = .invalidDevSub ∨ e = .unexpectedChild ∨ e = .duplicateChild ∨
    e = .firstViolation ∨ e = .versionTooLow ∨
    (parrent = .module ∨ parrent = .submodule) ∨
    ∃ i, get_record (Elem.kw c) info = some i ∧
      ¬((info.getD i dummySubelem).flags.unique ∧ (info.getD i dummySubelem).flags.parsed) ∧
      handler st c = .error e := by
  unfold yin_parse_content_step at h
  cases hj : get_record (Elem.kw c) info with
  | none =>
    rw [hj] at h
    simp only at h
    by_cases hd : parrent = YangKeyword.deviate ∧ isdevsub (Elem.kw c)
    · rw [if_pos hd] at h
      injection h with h2
      exact Or.inl h2.symm
    · rw [if_neg hd] at h
      injection h with h2
      exact Or.inr (Or.inl h2.symm)
  | some i =>
    rw [hj] at h
    simp only at h
    by_cases hm : parrent = YangKeyword.module ∨ parrent = YangKeyword.submodule
    · exact Or.inr (Or.inr (Or.inr (Or.inr (Or.inr (Or.inl hm)))))
    · rw [if_neg hm] at h
      simp only at h
      by_cases hu : (info.getD i dummySubelem).flags.unique ∧
          (info.getD i dummySubelem).flags.parsed
      · rw [if_pos hu] at h
        injection h with h2
        exact Or.inr (Or.inr (Or.inl h2.symm))
      · rw [if_neg hu] at h
        cases hf : (if (info.getD i dummySubelem).flags.first then
            yin_check_subelem_first_constraint info else .ok ()) with
        | error er =>
          rw [hf] at h
          simp only at h
          injection h with h2
          subst h2
          have her : er = Err.firstViolation := by
            by_cases hb : (info.getD i dummySubelem).flags.first
            · rw [if_pos hb] at hf
              exact first_err_form info er hf
            · rw [if_neg hb] at hf
              cases hf
          exact Or.inr (Or.inr (Or.inr (Or.inl her)))
        | ok u =>
          rw [hf] at h
          simp only at h
          by_cases hv : (info.getD i dummySubelem).flags.ver2 ∧ ver st < 2
          · rw [if_pos hv] at h
            injection h with h2
            exact Or.inr (Or.inr (Or.inr (Or.inr (Or.inl h2.symm))))
          · rw [if_neg hv] at h
            cases hh : handler st c with
            | error er =>
              rw [hh] at h
              simp only at h
              injection h with h2
              subst h2
              exact Or.inr (Or.inr (Or.inr (Or.inr (Or.inr (Or.inr ⟨i, rfl, hu, rfl⟩)))))
            | ok st2 =>
              rw [hh] at h
              cases h

/-- One successful step of the pattern child loop preserves the table shape
and the sentinel invariant tying the parsed flag of the modifier entry
(index 3) to the first byte of the stored argument. -/
theorem pattern_step_preserve (oracle : Oracle) (v : List Char)
    (info : List YinSubelement) (lastKw : YangKeyword) (st : LyspRestr) (c : Elem)
    (info2 : List YinSubelement) (st2 : LyspRestr)
    (h : yin_parse_content_step (fun _ => 2) (patternChildHandler oracle) .pattern
      info lastKw st c = .ok (info2, st2))
    (hstab : ∀ k, get_record k info = get_record k pattern_subelems)
    (hent : ∀ j, info.getD j dummySubelem = pattern_subelems.getD j dummySubelem ∨
      info.getD j dummySubelem = setParsed (pattern_subelems.getD j dummySubelem))
    (harg : st.arg = (if (info.getD 3 dummySubelem).flags.parsed then sentinelInvert
      else sentinelMatch) :: v) :
    (∀ k, get_record k info2 = get_record k pattern_subelems) ∧
    (∀ j, info2.getD j dummySubelem = pattern_subelems.getD j dummySubelem ∨
      info2.getD j dummySubelem = setParsed (pattern_subelems.getD j dummySubelem)) ∧
    st2.arg = (if (info2.getD 3 dummySubelem).flags.parsed then sentinelInvert
      else sentinelMatch) :: v ∧
    (Elem.kw c = .modifier →
      yin_parse_attribute (Elem.attrs c) .value .Y_STR_ARG = .ok (some "invert-match")) := by
  obtain ⟨i, hj, hu, _, hh, hinfo2⟩ := step_ok_inv (fun _ => 2) (patternChildHandler oracle)
    .pattern info lastKw st c info2 st2 h
  obtain ⟨hilen, hty⟩ := get_record_some (Elem.kw c) info i hj
  subst hinfo2
  have hstab2 : ∀ k, get_record k (info.set i (setParsed (info.getD i dummySubelem))) =
      get_record k pattern_subelems := fun k => by
    rw [get_record_set k info i (setParsed (info.getD i dummySubelem)) rfl]
    exact hstab k
  have hent2 : ∀ j, (info.set i (setParsed (info.getD i dummySubelem))).getD j dummySubelem =
      pattern_subelems.getD j dummySubelem ∨
      (info.set i (setParsed (info.getD i dummySubelem))).getD j dummySubelem =
        setParsed (pattern_subelems.getD j dummySubelem) := fun j => by
    by_cases hji : j = i
    · subst hji
      rw [getD_set_self _ _ _ hilen]
      rcases hent j with he | he
      · rw [he]
        exact Or.inr rfl
      · rw [he, setParsed_idem]
        exact Or.inr rfl
    · rw [getD_set_ne _ i j _ hji]
      exact hent j
  obtain ⟨hmod, hnotmod⟩ := patternChildHandler_ok_inv oracle st c st2 hh
  by_cases hkw : Elem.kw c = .modifier
  · have h3 : get_record YangKeyword.modifier pattern_subelems = some i := by
      rw [← hkw, ← hstab (Elem.kw c)]
      exact hj
    have h3' : (some 3 : Option Nat) = some i :=
      Eq.trans (by rfl) h3
    injection h3' with hi
    subst hi
    have huniq : (info.getD 3 dummySubelem).flags.unique = true := by
      rcases hent 3 with he | he <;> rw [he] <;> rfl
    have hpar : (info.getD 3 dummySubelem).flags.parsed = false := by
      cases hp : (info.getD 3 dummySubelem).flags.parsed
      · rfl
      · exact absurd ⟨huniq, hp⟩ hu
    obtain ⟨hbind, _, ha⟩ := hmod hkw
    refine ⟨hstab2, hent2, ?_, fun _ => hbind⟩
    rw [getD_set_self _ _ _ hilen]
    rw [hpar] at harg
    simp only [if_false, Bool.false_eq_true] at harg
    rw [ha, harg]
    rfl
  · have hi3 : i ≠ 3 := by
      intro hi
      subst hi
      have hkc : Elem.kw c = YangKeyword.modifier := by
        rcases hent 3 with he | he <;> rw [he] at hty <;> exact hty.symm
      exact hkw hkc
    refine ⟨hstab2, hent2, ?_, fun hm => absurd hm hkw⟩
    rw [getD_set_ne _ i 3 _ (Ne.symm hi3)]
    rw [hnotmod hkw]
    exact harg

/-- Sentinel invariant of the pattern child loop: on success the stored
argument's first byte is 0x06 or 0x15 exactly as the modifier entry is
unparsed or parsed, the rest of the argument is untouched, and every
modifier child bound exactly invert-match. -/
theorem pattern_loop_inv (oracle : Oracle) (v : List Char) :
    ∀ (cs : List Elem) (info : List YinSubelement) (lastKw : YangKeyword)
      (st : LyspRestr) (out : List YinSubelement × LyspRestr),
      yin_parse_content_loop (fun _ => 2) (patternChildHandler oracle) .pattern
        info lastKw st cs = .ok out →
      (∀ k, get_record k info = get_record k pattern_subelems) →
      (∀ j, info.getD j dummySubelem = pattern_subelems.getD j dummySubelem ∨
        info.getD j dummySubelem = setParsed (pattern_subelems.getD j dummySubelem)) →
      st.arg = (if (info.getD 3 dummySubelem).flags.parsed then sentinelInvert
        else sentinelMatch) :: v →
      out.2.arg = (if (out.1.getD 3 dummySubelem).flags.parsed then sentinelInvert
        else sentinelMatch) :: v ∧
      (∀ c ∈ cs, Elem.kw c = .modifier →
        yin_parse_attribute (Elem.attrs c) .value .Y_STR_ARG = .ok (some "invert-match")) := by
  intro cs
  induction cs with
  | nil =>
    intro info lastKw st out h _ _ harg
    cases h
    exact ⟨harg, fun c hc => absurd hc (List.not_mem_nil c)⟩
  | cons c rest ih =>
    intro info lastKw st out h hstab hent harg
    simp only [yin_parse_content_loop] at h
    cases hs : yin_parse_content_step (fun _ => 2) (patternChildHandler oracle) .pattern
        info lastKw st c with
    | error er => rw [hs] at h; cases h
    | ok p =>
      obtain ⟨info2, st2⟩ := p
      rw [hs] at h
      simp only at h
      obtain ⟨hstab2, hent2, harg2, hbind⟩ :=
        pattern_step_preserve oracle v info lastKw st c info2 st2 hs hstab hent harg
      obtain ⟨hout, hrest⟩ := ih info2 (Elem.kw c) st2 out h hstab2 hent2 harg2
      refine ⟨hout, fun c2 hc2 hm => ?_⟩
      rcases List.mem_cons.1 hc2 with hc2 | hc2
      · subst hc2
        exact hbind hm
      · exact hrest c2 hc2 hm

/-- The pattern child loop never reports the assert-model error: a modifier
child is only dispatched while its table entry is unparsed, when the
sentinel invariant guarantees the 0x06 first byte the handler asserts. -/
theorem pattern_loop_no_assert (oracle : Oracle) (v : List Char)
    (horacle : ∀ x, oracle x ≠ .error .internalAssert) :
    ∀ (cs : List Elem) (info : List YinSubelement) (lastKw : YangKeyword)
      (st : LyspRestr),
      (∀ k, get_record k info = get_record k pattern_subelems) →
      (∀ j, info.getD j dummySubelem = pattern_subelems.getD j dummySubelem ∨
        info.getD j dummySubelem = setParsed (pattern_subelems.getD j dummySubelem)) →
      st.arg = (if (info.getD 3 dummySubelem).flags.parsed then sentinelInvert
        else sentinelMatch) :: v →
      yin_parse_content_loop (fun _ => 2) (patternChildHandler oracle) .pattern
        info lastKw st cs ≠ .error .internalAssert := by
  intro cs
  induction cs with
  | nil =>
    intro info lastKw st _ _ _ h
    cases h
  | cons c rest ih =>
    intro info lastKw st hstab hent harg h
    simp only [yin_parse_content_loop] at h
    cases hs : yin_parse_content_step (fun _ => 2) (patternChildHandler oracle) .pattern
        info lastKw st c with
    | error er =>
      rw [hs] at h
      simp only at h
      injection h with h2
      subst h2
      rcases step_err_handler_inv (fun _ => 2) (patternChildHandler oracle) .pattern
          info lastKw st c .internalAssert hs with
        h1 | h1 | h1 | h1 | h1 | h1 | ⟨i, hj, hu, hh⟩
      · cases h1
      · cases h1
      · cases h1
      · cases h1
      · cases h1
      · rcases h1 with h1 | h1 <;> cases h1
      · have hpat : Elem.kw c = .modifier → st.arg.headD ' ' = sentinelMatch := by
          intro hm
          have h3 : get_record YangKeyword.modifier pattern_subelems = some i := by
            rw [← hm, ← hstab (Elem.kw c)]
            exact hj
          have h3' : (some 3 : Option Nat) = some i :=
            Eq.trans (by rfl) h3
          injection h3' with hi
          subst hi
          have huniq : (info.getD 3 dummySubelem).flags.unique = true := by
            rcases hent 3 with he | he <;> rw [he] <;> rfl
          have hpar : (info.getD 3 dummySubelem).flags.parsed = false := by
            cases hp : (info.getD 3 dummySubelem).flags.parsed
            · rfl
            · exact absurd ⟨huniq, hp⟩ hu
          rw [hpar] at harg
          simp only [if_false, Bool.false_eq_true] at harg
          rw [harg]
          rfl
        exact patternChildHandler_no_assert oracle st c horacle hpat hh
    | ok p =>
      obtain ⟨info2, st2⟩ := p
      rw [hs] at h
      simp only at h
      obtain ⟨hstab2, hent2, harg2, _⟩ :=
        pattern_step_preserve oracle v info lastKw st c info2 st2 hs hstab hent harg
      exact ih info2 (Elem.kw c) st2 hstab2 hent2 harg2 h

/-- Unfolding of yin_parse_pattern once the value attribute is bound. -/
theorem yin_parse_pattern_eq (oracle : Oracle) (attrs : List AttrRecord)
    (content : ElemContent) (v : String)
    (hb : yin_parse_attribute attrs .value .Y_STR_ARG = .ok (some v)) :
    yin_parse_pattern oracle attrs content =
      yin_parse_content (fun _ => 2) (patternChildHandler oracle) pattern_subelems
        .pattern Option.none
        { arg := sentinelMatch :: v.data, dsc := Option.none, eapptag := Option.none,
          emsg := Option.none, ref := Option.none } content := by
  unfold yin_parse_pattern
  rw [hb]

/-- C1: in a successful pattern parse the stored argument is the raw value
prefixed with exactly one sentinel byte, 0x06 when no modifier child
occurred and 0x15 otherwise, at most one modifier child is accepted and
every accepted modifier bound exactly invert-match; a reachable modifier
whose value attribute binds anything else fails the parse with the invalid
value error of the modifier keyword. -/
theorem C1_pattern_sentinel :
    (∀ (oracle : Oracle) (attrs : List AttrRecord) (cs : List Elem) (v : String)
        (restr : LyspRestr),
      yin_parse_attribute attrs .value .Y_STR_ARG = .ok (some v) →
      yin_parse_pattern oracle attrs (.elems cs) = .ok restr →
      restr.arg = (if countKw .modifier cs = 0 then sentinelMatch else sentinelInvert)
        :: v.data ∧
      countKw .modifier cs ≤ 1 ∧
      (∀ c ∈ cs, Elem.kw c = .modifier →
        yin_parse_attribute (Elem.attrs c) .value .Y_STR_ARG = .ok (some "invert-match"))) ∧
    (∀ (oracle : Oracle) (attrs : List AttrRecord) (v : String) (pre : List Elem)
        (c : Elem) (rest : List Elem) (info1 : List YinSubelement) (st1 : LyspRestr),
      yin_parse_attribute attrs .value .Y_STR_ARG = .ok (some v) →
      yin_parse_content_loop (fun _ => 2) (patternChildHandler oracle) .pattern
        pattern_subelems .none
        { arg := sentinelMatch :: v.data, dsc := Option.none, eapptag := Option.none,
          emsg := Option.none, ref := Option.none } pre = .ok (info1, st1) →
      (∀ x ∈ pre, Elem.kw x ≠ .modifier) →
      Elem.kw c = .modifier →
      (∃ w, yin_parse_attribute (Elem.attrs c) .value .Y_STR_ARG = .ok (some w) ∧
        w ≠ "invert-match") →
      yin_parse_pattern oracle attrs (.elems (pre ++ c :: rest)) =
        .error (.invalidValue (kwErr .modifier))) := by
  constructor
  · intro oracle attrs cs v restr hbind h
    rw [yin_parse_pattern_eq oracle attrs (.elems cs) v hbind, content_elems_eq] at h
    cases hl : yin_parse_content_loop (fun _ => 2) (patternChildHandler oracle) .pattern
        pattern_subelems .none
        { arg := sentinelMatch :: v.data, dsc := Option.none, eapptag := Option.none,
          emsg := Option.none, ref := Option.none } cs with
    | error er => rw [hl] at h; cases h
    | ok p =>
      obtain ⟨info2, st2⟩ := p
      rw [hl] at h
      simp only at h
      cases hm : yin_check_subelem_mandatory_constraint info2 with
      | error er => rw [hm] at h; cases h
      | ok u =>
        rw [hm] at h
        simp only at h
        injection h with h2
        subst h2
        obtain ⟨hargout, hbinds⟩ := pattern_loop_inv oracle v.data cs pattern_subelems
          .none _ (info2, st2) hl (fun _ => rfl) (fun _ => Or.inl rfl) rfl
        have hargout2 : st2.arg = (if (info2.getD 3 dummySubelem).flags.parsed
            then sentinelInvert else sentinelMatch) :: v.data := hargout
        obtain ⟨_, _, hex, hne⟩ := loop_track (fun _ => 2) (patternChildHandler oracle)
          .pattern .modifier cs pattern_subelems .none _ info2 st2 3 hl rfl
        have hcount := loop_unique_count (fun _ => 2) (patternChildHandler oracle)
          .pattern .modifier cs pattern_subelems .none _ (info2, st2) 3 hl rfl rfl
        refine ⟨?_, by simpa using hcount, hbinds⟩
        by_cases hcnt : countKw .modifier cs = 0
        · have hall : ∀ x ∈ cs, Elem.kw x ≠ .modifier := by
            intro x hx hkx
            have hpos : 0 < countKw .modifier cs :=
              List.countP_pos.2 ⟨x, hx, by simp [hkx]⟩
            omega
          have h30 := hne hall
          rw [if_pos hcnt, hargout2, h30]
          rfl
        · have hexists : ∃ x ∈ cs, Elem.kw x = .modifier := by
            obtain ⟨x, hx, hpx⟩ := List.countP_pos.1 (Nat.pos_of_ne_zero hcnt)
            exact ⟨x, hx, by simpa using hpx⟩
          have h3t := hex hexists
          rw [if_neg hcnt, hargout2, h3t]
          rfl
  · intro oracle attrs v pre c rest info1 st1 hbind hloop hall hkw hbad
    obtain ⟨w, hbw, hw⟩ := hbad
    obtain ⟨ck, cas, ccont⟩ := c
    have hck : ck = YangKeyword.modifier := hkw
    subst hck
    obtain ⟨hget1, _, _, hne⟩ := loop_track (fun _ => 2) (patternChildHandler oracle)
      .pattern .modifier pre pattern_subelems .none _ info1 st1 3 hloop rfl
    have h30 := hne hall
    obtain ⟨hargout, _⟩ := pattern_loop_inv oracle v.data pre pattern_subelems
      .none _ (info1, st1) hloop (fun _ => rfl) (fun _ => Or.inl rfl) rfl
    have harg1 : st1.arg = sentinelMatch :: v.data := by
      have h2 : st1.arg = (if (info1.getD 3 dummySubelem).flags.parsed
          then sentinelInvert else sentinelMatch) :: v.data := hargout
      rw [h2, h30]
      rfl
    have hhandler : patternChildHandler oracle st1 (Elem.mk .modifier cas ccont) =
        .error (.invalidValue (kwErr .modifier)) := by
      unfold patternChildHandler
      simp only [Elem.kw]
      rw [yin_parse_modifier_badval oracle (Elem.attrs (Elem.mk .modifier cas ccont))
        (Elem.content (Elem.mk .modifier cas ccont)) st1.arg w
        (by rw [harg1]; rfl) hbw hw]
    have hstep := step_handler_err (fun _ => 2) (patternChildHandler oracle) .pattern
      info1 (lastKwOf .none pre) st1 (Elem.mk .modifier cas ccont) 3
      (.invalidValue (kwErr .modifier)) hget1
      (fun hm => by rcases hm with h3 | h3 <;> cases h3)
      (fun hc => by rw [h30] at hc; exact absurd hc.2 (by decide))
      (by rw [h30]; rfl)
      (fun hc => by have h4 : (2 : Nat) < 2 := hc.2; omega)
      hhandler
    rw [yin_parse_pattern_eq oracle attrs _ v hbind, content_elems_eq,
      loop_append (fun _ => 2) (patternChildHandler oracle) .pattern pre
        (Elem.mk .modifier cas ccont :: rest) pattern_subelems .none _, hloop]
    simp only
    rw [yin_parse_content_loop, hstep]

/-- Witness for C1 at concrete inputs: one invert-match modifier flips the
sentinel, and a modifier bound to another value fails with the invalid
value error. -/
theorem C1_pattern_sentinel_witness :
    ({ arg := sentinelInvert :: "abc".data, dsc := Option.none, eapptag := Option.none,
       emsg := Option.none, ref := Option.none } : LyspRestr).arg =
      (if countKw .modifier [elem1 .modifier "value" "invert-match"] = 0 then sentinelMatch
        else sentinelInvert) :: "abc".data ∧
    countKw .modifier [elem1 .modifier "value" "invert-match"] ≤ 1 ∧
    yin_parse_pattern okOracle [{ pfx := Option.none, name := "value", content := "abc" }]
        (.elems [elem1 .modifier "value" "bogus"]) =
      .error (.invalidValue (kwErr .modifier)) := by
  obtain ⟨h1, h2, _⟩ := C1_pattern_sentinel.1 okOracle
    [{ pfx := Option.none, name := "value", content := "abc" }]
    [elem1 .modifier "value" "invert-match"] "abc"
    { arg := sentinelInvert :: "abc".data, dsc := Option.none, eapptag := Option.none,
      emsg := Option.none, ref := Option.none } (by rfl) (by rfl)
  refine ⟨h1, h2, ?_⟩
  exact C1_pattern_sentinel.2 okOracle
    [{ pfx := Option.none, name := "value", content := "abc" }] "abc" []
    (elem1 .modifier "value" "bogus") [] pattern_subelems
    { arg := sentinelMatch :: "abc".data, dsc := Option.none, eapptag := Option.none,
      emsg := Option.none, ref := Option.none }
    (by rfl) (by rfl) (fun x hx => absurd hx (List.not_mem_nil x)) (by rfl)
    ⟨"bogus", by rfl, by decide⟩

/-- C10: the modifier handler's entry assertion on the 0x06 sentinel never
fails during a pattern parse — the pattern handler stores the sentinel
before dispatching children and the Unique flag prevents a second modifier
after the rewrite to 0x15 — so the assert-model error is unreachable
whenever the oracle itself never reports it. -/
theorem C10_modifier_assert (oracle : Oracle) (attrs : List AttrRecord)
    (content : ElemContent)
    (horacle : ∀ x, oracle x ≠ .error .internalAssert) :
    yin_parse_pattern oracle attrs content ≠ .error .internalAssert := by
  unfold yin_parse_pattern
  cases hb : yin_parse_attribute attrs .value .Y_STR_ARG with
  | error e =>
    intro h
    injection h with h2
    subst h2
    exact yin_parse_attribute_ne_assert attrs .value .Y_STR_ARG hb
  | ok o =>
    cases o with
    | none => intro h; cases h
    | some v =>
      simp only
      intro h
      cases content with
      | elems cs =>
        rw [content_elems_eq] at h
        cases hl : yin_parse_content_loop (fun _ => 2) (patternChildHandler oracle)
            .pattern pattern_subelems .none
            { arg := sentinelMatch :: v.data, dsc := Option.none, eapptag := Option.none,
              emsg := Option.none, ref := Option.none } cs with
        | error er =>
          rw [hl] at h
          simp only at h
          injection h with h2
          subst h2
          exact pattern_loop_no_assert oracle v.data horacle cs pattern_subelems .none _
            (fun _ => rfl) (fun _ => Or.inl rfl) rfl hl
        | ok p =>
          obtain ⟨info2, st2⟩ := p
          rw [hl] at h
          simp only at h
          cases hm : yin_check_subelem_mandatory_constraint info2 with
          | error e =>
            rw [hm] at h
            simp only at h
            injection h with h2
            subst h2
            cases mandatory_err_form info2 .internalAssert hm
          | ok u => rw [hm] at h; cases h
      | text s =>
        simp only [yin_parse_content] at h
        cases hv : yin_validate_value .Y_STR_ARG s with
        | error e =>
          rw [hv] at h
          simp only at h
          injection h with h2
          subst h2
          unfold yin_validate_value at hv
          split at hv
          · cases hv
          · injection hv with h3
            cases h3
        | ok u =>
          rw [hv] at h
          simp only at h
          cases hm : yin_check_subelem_mandatory_constraint pattern_subelems with
          | error e =>
            rw [hm] at h
            simp only at h
            injection h with h2
            subst h2
            cases mandatory_err_form pattern_subelems .internalAssert hm
          | ok u2 => rw [hm] at h; cases h
      | empty =>
        simp only [yin_parse_content] at h
        cases hm : yin_check_subelem_mandatory_constraint pattern_subelems with
        | error e =>
          rw [hm] at h
          simp only at h
          injection h with h2
          subst h2
          cases mandatory_err_form pattern_subelems .internalAssert hm
        | ok u => rw [hm] at h; cases h

/-- Witness for C10 at a concrete input: a pattern with an invert-match
modifier child parsed with the trivial oracle does not hit the assert. -/
theorem C10_modifier_assert_witness :
    yin_parse_pattern okOracle [{ pfx := Option.none, name := "value", content := "p" }]
        (.elems [elem1 .modifier "value" "invert-match"]) ≠ .error .internalAssert :=
  C10_modifier_assert okOracle
    [{ pfx := Option.none, name := "value", content := "p" }]
    (.elems [elem1 .modifier "value" "invert-match"]) (fun x h => by cases h)

/-- C9: a successfully parsed leaf-list has min-elements 0 or no default,
and its min never exceeds a set numeric max; a successfully parsed list's
min never exceeds a set numeric max; the bad leaf-list combination is
rejected only after the children parsed, with the dedicated error; and a
leaf-list with min-elements 0 plus a default is accepted. -/
theorem C9_minmax_default_combinations :
    (∀ (oracle : Oracle) (attrs : List AttrRecord) (content : ElemContent)
        (res : LyspNodeLeaflist),
      yin_parse_leaflist oracle attrs content = .ok res →
      (res.min = 0 ∨ res.dflts = []) ∧ (res.max ≠ 0 → res.min ≤ res.max)) ∧
    (∀ (oracle : Oracle) (attrs : List AttrRecord) (content : ElemContent)
        (res : LyspNodeList),
      yin_parse_list oracle attrs content = .ok res →
      (res.max ≠ 0 → res.min ≤ res.max)) ∧
    (∀ (oracle : Oracle) (attrs : List AttrRecord) (content : ElemContent)
        (st2 : LyspNodeLeaflist),
      yin_parse_content (fun _ => 2) (llistChildHandler oracle) leaflist_subelems
        .leaf_list Option.none (llistBindName attrs) content = .ok st2 →
      st2.min ≠ 0 → st2.dflts ≠ [] →
      yin_parse_leaflist oracle attrs content = .error .childComb) ∧
    yin_parse_leaflist okOracle [{ pfx := Option.none, name := "name", content := "ll" }]
        (.elems [bareElem .type, elem1 .default "value" "dv",
          elem1 .min_elements "value" "0"]) =
      .ok { name := some "ll", dflts := ["dv"], min := 0, max := 0,
            setMin := true, setMax := false } := by
  refine ⟨?_, ?_, ?_, by rfl⟩
  · intro oracle attrs content res h
    unfold yin_parse_leaflist at h
    simp only at h
    cases hc : yin_parse_content (fun _ => 2) (llistChildHandler oracle) leaflist_subelems
        .leaf_list Option.none (llistBindName attrs) content with
    | error e => rw [hc] at h; cases h
    | ok st2 =>
      rw [hc] at h
      simp only at h
      by_cases h1 : st2.min ≠ 0 ∧ st2.dflts ≠ []
      · rw [if_pos h1] at h
        cases h
      · rw [if_neg h1] at h
        by_cases h2 : st2.max ≠ 0 ∧ st2.max < st2.min
        · rw [if_pos h2] at h
          cases h
        · rw [if_neg h2] at h
          injection h with h3
          subst h3
          constructor
          · rcases not_and_or.1 h1 with h4 | h4
            · exact Or.inl (not_not.1 h4)
            · exact Or.inr (not_not.1 h4)
          · intro hmax
            by_cases hlt : st2.max < st2.min
            · exact absurd ⟨hmax, hlt⟩ h2
            · omega
  · intro oracle attrs content res h
    unfold yin_parse_list at h
    cases hb : yin_parse_attribute attrs .name .Y_IDENTIF_ARG with
    | error e => rw [hb] at h; cases h
    | ok v =>
      rw [hb] at h
      simp only at h
      cases hc : yin_parse_content (fun _ => 2) (listChildHandler oracle) list_subelems
          .list Option.none { emptyListNode with name := v } content with
      | error e => rw [hc] at h; cases h
      | ok st2 =>
        rw [hc] at h
        simp only at h
        by_cases h2 : st2.max ≠ 0 ∧ st2.max < st2.min
        · rw [if_pos h2] at h
          cases h
        · rw [if_neg h2] at h
          injection h with h3
          subst h3
          intro hmax
          by_cases hlt : st2.max < st2.min
          · exact absurd ⟨hmax, hlt⟩ h2
          · omega
  · intro oracle attrs content st2 hc hmin hd
    unfold yin_parse_leaflist
    simp only
    rw [hc]
    simp only
    rw [if_pos ⟨hmin, hd⟩]

/-- Witness for C9 at concrete inputs: the accepted leaf-list of the closed
conjunct satisfies the invariant, and raising min-elements to 2 with the
default still present yields the combination error. -/
theorem C9_minmax_default_combinations_witness :
    ((({ name := some "ll", dflts := ["dv"], min := 0, max := 0,
         setMin := true, setMax := false } : LyspNodeLeaflist).min = 0 ∨
      ({ name := some "ll", dflts := ["dv"], min := 0, max := 0,
         setMin := true, setMax := false } : LyspNodeLeaflist).dflts = []) ∧
      (({ name := some "ll", dflts := ["dv"], min := 0, max := 0,
          setMin := true, setMax := false } : LyspNodeLeaflist).max ≠ 0 →
        ({ name := some "ll", dflts := ["dv"], min := 0, max := 0,
           setMin := true, setMax := false } : LyspNodeLeaflist).min ≤
          ({ name := some "ll", dflts := ["dv"], min := 0, max := 0,
             setMin := true, setMax := false } : LyspNodeLeaflist).max)) ∧
    yin_parse_leaflist okOracle [{ pfx := Option.none, name := "name", content := "ll" }]
        (.elems [bareElem .type, elem1 .default "value" "dv",
          elem1 .min_elements "value" "2"]) = .error .childComb := by
  constructor
  · exact C9_minmax_default_combinations.1 okOracle
      [{ pfx := Option.none, name := "name", content := "ll" }]
      (.elems [bareElem .type, elem1 .default "value" "dv",
        elem1 .min_elements "value" "0"])
      { name := some "ll", dflts := ["dv"], min := 0, max := 0,
        setMin := true, setMax := false }
      C9_minmax_default_combinations.2.2.2
  · exact C9_minmax_default_combinations.2.2.1 okOracle
      [{ pfx := Option.none, name := "name", content := "ll" }]
      (.elems [bareElem .type, elem1 .default "value" "dv",
        elem1 .min_elements "value" "2"])
      { name := some "ll", dflts := ["dv"], min := 2, max := 0,
        setMin := true, setMax := false }
      (by rfl) (by decide) (by decide)

/-- C4 (code flaw, parser_yin.c line 693): a second bit child with the same
name as an already-parsed bit of the same type is accepted, because the
inline uniqueness check scans type->enums — still empty while parsing bits —
instead of type->bits; the same check run over the bits array as it stands
after the append would have reported the duplicate identifier. -/
theorem C4_bit_name_uniqueness_not_enforced :
    yin_parse_type_content okOracle emptyType
        (.elems [elem1 .bit "name" "b", elem1 .bit "name" "b"]) =
      .ok { enums := [],
            bits := [{ name := some "b", value := 0, valueSet := false },
                     { name := some "b", value := 0, valueSet := false }],
            setEnum := false, setBit := true } ∧
    lyCheckUniqueness ([] : List LyspTypeEnum) (some "b") = .ok () ∧
    lyCheckUniqueness
        [{ name := some "b", value := 0, valueSet := false },
         { name := some "b", value := 0, valueSet := false }] (some "b") =
      .error .dupIdent := by
  refine ⟨by rfl, by rfl, by rfl⟩

/-- C5 (code flaw, parser_yin.c line 1461): binding the name attribute of a
leaf-list with no attributes fails with MissingAttribute, yet the leaf-list
handler drops that result — unlike every sibling handler it does not wrap
the call in LY_CHECK_RET — and the parse of the element succeeds with the
name slot left unset. -/
theorem C5_leaflist_name_error_dropped :
    yin_parse_attribute ([] : List AttrRecord) .name .Y_IDENTIF_ARG =
      .error .missingAttr ∧
    yin_parse_leaflist okOracle [] (.elems [bareElem .type]) =
      .ok { name := Option.none, dflts := [], min := 0, max := 0,
            setMin := false, setMax := false } := by
  refine ⟨by rfl, by rfl⟩
